import Mathlib

/-!
The value codec and the request construction of client_meetings.js.

A shallow embedding of the helpers of `src/client_meetings.js`
(`isoUtc`, `toFsValue`, `toFsFields`, `http`, `fsCreateMeeting`,
`fsPatchMeeting`) together with the ECMAScript built-ins they call
(`Number.isInteger`, `String(number)`, `Date.prototype.toISOString`,
`String.prototype.replace` with the regular expression `/\.\d{3}Z$/`,
`Object.entries`, `Object.fromEntries`, `encodeURIComponent`).

Modelling conventions:
* a JS string is a Lean `String` (a sequence of Unicode scalar values; lone
  surrogates are not representable);
* a JS number is `JsNumber`: a finite value carried as a rational (`finite 0`
  is `+0`), the negative zero `-0`, or one of `NaN`, `+Infinity`, `-Infinity`;
* a thrown exception is `Except.error`.
-/

namespace ClientMeetings

/-! ## Decimal rendering of naturals -/

/-- The decimal digit character of `d` (for `d < 10`). -/
def digitChar (d : Nat) : Char := Char.ofNat (48 + d)

/-- Decimal digits of `n`, most significant first, with `fuel` bounding the
number of digits produced. -/
def natDigitsAux : Nat → Nat → List Char
  | 0, _ => []
  | fuel + 1, n =>
    if n < 10 then [digitChar n]
    else natDigitsAux fuel (n / 10) ++ [digitChar (n % 10)]

/-- Decimal digits of `n`, most significant first (`[48]`, i.e. "0", for zero). -/
def natDigits (n : Nat) : List Char := natDigitsAux (n + 1) n

/-- Decimal rendering of a natural number. -/
def natToString (n : Nat) : String := String.mk (natDigits n)

/-- Number of decimal digits of `n`. -/
def numDigits (n : Nat) : Nat := (natDigits n).length

/-- Drop the trailing zero digits of a digit list. -/
def stripTrailingZeros (ds : List Char) : List Char :=
  (ds.reverse.dropWhile (fun c => c == '0')).reverse

/-! ## JS numbers -/

/-- A JS Number value; `finite 0` is `+0` and `negZero` is `-0`. -/
inductive JsNumber
  | finite (q : ℚ)
  | negZero
  | nan
  | posInf
  | negInf
deriving DecidableEq

/-- The integer a Number is, when it is finite with integral value
(zero for both zeros). -/
def JsNumber.asInteger : JsNumber → Option Int
  | .finite q => if q.den == 1 then some q.num else none
  | .negZero => some 0
  | _ => none

/-- Built-in `Number.isInteger(v)` on a Number. -/
def JsNumber.isInteger (x : JsNumber) : Bool := x.asInteger.isSome

/-- Number of binary digits of `n`, with `fuel` bounding the count. -/
def bitLengthAux : Nat → Nat → Nat
  | 0, _ => 0
  | fuel + 1, n => if n = 0 then 0 else bitLengthAux fuel (n / 2) + 1

/-- Number of binary digits of `n` (zero for `0`). -/
def bitLength (n : Nat) : Nat := bitLengthAux n n

/-- The significand of `v` after dropping its `sh` low bits, rounded to
nearest with ties to even. -/
def roundSignificand (v sh : Nat) : Nat :=
  let q := v / 2 ^ sh
  let r := v % 2 ^ sh
  let half := 2 ^ (sh - 1)
  if half < r ∨ (r = half ∧ q % 2 = 1) then q + 1 else q

/-- Round the natural number `v` to the nearest IEEE-754 binary64 value
(53-bit significand, ties to even); `none` when the result overflows. -/
def roundToDouble (v : Nat) : Option Nat :=
  let bits := bitLength v
  if bits ≤ 53 then some v
  else
    let sh := bits - 53
    let res := roundSignificand v sh * 2 ^ sh
    if res < 2 ^ 1024 then some res else none

/-- The natural number `x` is exactly representable as a binary64 value. -/
def isDoubleNat (x : Nat) : Bool := roundToDouble x == some x

/-- The integer `n` is exactly representable as a binary64 value. -/
def isDoubleInt (n : Int) : Bool := isDoubleNat n.natAbs

/-- Candidate decimal with exponent `j` for the positive integer `x`:
among the two multiples of `10 ^ j` around `x`, those that round to `x`;
if both do, the one closer to `x` (the even one on a tie). -/
def shortestCandidate (x j : Nat) : Option Nat :=
  let p := 10 ^ j
  let lo := x / p * p
  let hi := lo + p
  let okLo := roundToDouble lo == some x
  let okHi := roundToDouble hi == some x
  if okLo && okHi then
    if 2 * (x - lo) < p then some lo
    else if p < 2 * (x - lo) then some hi
    else if (x / p) % 2 = 0 then some lo else some hi
  else if okLo then some lo
  else if okHi then some hi
  else none

/-- Search for the decimal with the fewest significant digits `k` that rounds
to `x`, trying `k`, `k + 1`, ... (`d` is the number of digits of `x`). -/
def shortestFrom (x d : Nat) : Nat → Nat → Nat
  | 0, _ => x
  | fuel + 1, k =>
    if d < k then x
    else
      match shortestCandidate x (d - k) with
      | some v => v
      | none => shortestFrom x d fuel (k + 1)

/-- The value `s × 10 ^ (n - k)` of ECMAScript `Number::toString` for a
positive integral Number `x`: the decimal with the fewest significant digits
that still denotes `x` (at most 17 are ever needed). -/
def shortestDecimal (x : Nat) : Nat := shortestFrom x (numDigits x) 17 1

/-- Built-in `Number::toString(x, 10)` for a non-negative integral Number `x`:
plain digits when the decimal exponent `n` is at most 21, exponential
notation otherwise. -/
def natNumberToString (x : Nat) : String :=
  let v := shortestDecimal x
  let n := numDigits v
  if n ≤ 21 then natToString v
  else
    match stripTrailingZeros (natDigits v) with
    | [] => natToString v
    | [c] => String.mk [c] ++ "e+" ++ natToString (n - 1)
    | c :: cs => String.mk (c :: '.' :: cs) ++ "e+" ++ natToString (n - 1)

/-- Built-in `String(v)` for an integral Number with value `n`. -/
def intNumberToString (n : Int) : String :=
  if n < 0 then "-" ++ natNumberToString n.natAbs else natNumberToString n.natAbs

/-! ## Dates (ECMAScript time values, milliseconds since the epoch) -/

/-- An exception thrown by a built-in or by the program. -/
inductive JsError
  | rangeError (message : String)
  | syntaxError (message : String)
  | error (message : String)
deriving DecidableEq

deriving instance DecidableEq for Except

/-- The error an engine throws when the call stack is exhausted. -/
def stackOverflow : JsError := .rangeError "Maximum call stack size exceeded"

/-- The error `toISOString` throws on an Invalid Date. -/
def invalidTime : JsError := .rangeError "Invalid time value"

/-- Milliseconds per day. -/
def msPerDay : Int := 86400000

/-- Built-in `Day(t)`: the day number of time value `t`. -/
def Day (t : Int) : Int := t / msPerDay

/-- Built-in `DayFromYear(y)`: the day number of the first day of year `y`. -/
def DayFromYear (y : Int) : Int :=
  365 * (y - 1970) + (y - 1969) / 4 - (y - 1901) / 100 + (y - 1601) / 400

/-- Advance `y` while the next year still starts on or before `day`. -/
def yearSearch (day : Int) : Nat → Int → Int
  | 0, y => y
  | fuel + 1, y => if DayFromYear (y + 1) ≤ day then yearSearch day fuel (y + 1) else y

/-- The largest year `y` with `DayFromYear y ≤ day`: start from an estimate
that is at most three years too low and search upwards. -/
def yearFromDay (day : Int) : Int :=
  yearSearch day 3 (1970 + 400 * day / 146097 - 1)

/-- Built-in `YearFromTime(t)`. -/
def YearFromTime (t : Int) : Int := yearFromDay (Day t)

/-- Built-in `InLeapYear(t)` as 0 or 1, from the year. -/
def leapOfYear (y : Int) : Int :=
  if DayFromYear (y + 1) - DayFromYear y = 366 then 1 else 0

/-- Built-in `DayWithinYear(t)`. -/
def DayWithinYear (t : Int) : Int := Day t - DayFromYear (YearFromTime t)

/-- Built-in `MonthFromTime` (0 = January) and the day number on which that month
starts, from the day within the year `d` and the leap flag `l`. -/
def monthAndStart (d l : Int) : Nat × Int :=
  if d < 31 then (0, 0)
  else if d < 59 + l then (1, 31)
  else if d < 90 + l then (2, 59 + l)
  else if d < 120 + l then (3, 90 + l)
  else if d < 151 + l then (4, 120 + l)
  else if d < 181 + l then (5, 151 + l)
  else if d < 212 + l then (6, 181 + l)
  else if d < 243 + l then (7, 212 + l)
  else if d < 273 + l then (8, 243 + l)
  else if d < 304 + l then (9, 273 + l)
  else if d < 334 + l then (10, 304 + l)
  else (11, 334 + l)

/-- Built-in `MonthFromTime(t)`. -/
def MonthFromTime (t : Int) : Nat :=
  (monthAndStart (DayWithinYear t) (leapOfYear (YearFromTime t))).1

/-- Built-in `DateFromTime(t)`: the day of the month, from 1. -/
def DateFromTime (t : Int) : Int :=
  DayWithinYear t - (monthAndStart (DayWithinYear t) (leapOfYear (YearFromTime t))).2 + 1

/-- Built-in `HourFromTime(t)`. -/
def HourFromTime (t : Int) : Int := (t / 3600000) % 24

/-- Built-in `MinFromTime(t)`. -/
def MinFromTime (t : Int) : Int := (t / 60000) % 60

/-- Built-in `SecFromTime(t)`. -/
def SecFromTime (t : Int) : Int := (t / 1000) % 60

/-- Built-in `msFromTime(t)`. -/
def msFromTime (t : Int) : Int := t % 1000

/-- Decimal digits of `n` left-padded with zeros to width `w`. -/
def padDigits (w n : Nat) : List Char :=
  List.replicate (w - (natDigits n).length) '0' ++ natDigits n

/-- The year field of the ISO format: four digits for years 0 to 9999, a sign
and six digits (the expanded year) otherwise. -/
def isoYear (y : Int) : List Char :=
  if 0 ≤ y ∧ y ≤ 9999 then padDigits 4 y.toNat
  else (if y < 0 then '-' else '+') :: padDigits 6 y.natAbs

/-- The characters of `YYYY-MM-DDTHH:mm:ss` for time value `t`. -/
def isoSeconds (t : Int) : List Char :=
  isoYear (YearFromTime t) ++ '-' :: padDigits 2 (MonthFromTime t + 1) ++
    '-' :: padDigits 2 (DateFromTime t).toNat ++
    'T' :: padDigits 2 (HourFromTime t).toNat ++
    ':' :: padDigits 2 (MinFromTime t).toNat ++
    ':' :: padDigits 2 (SecFromTime t).toNat

/-- Built-in `Date.prototype.toISOString`: `YYYY-MM-DDTHH:mm:ss.sssZ`; throws a
`RangeError` when the time value is `NaN` (`none`, an Invalid Date). -/
def toISOString : Option Int → Except JsError String
  | none => .error invalidTime
  | some t => .ok (String.mk (isoSeconds t ++ '.' :: padDigits 3 (msFromTime t).toNat ++ ['Z']))

/-- Built-in `s.replace(/\.\d{3}Z$/, "Z")`: when the string ends with a dot, three
decimal digits and `Z`, that suffix becomes `Z`; otherwise `s` is unchanged. -/
def replaceMillis (s : String) : String :=
  match s.data.reverse with
  | 'Z' :: d3 :: d2 :: d1 :: '.' :: rest =>
    if d1.isDigit && d2.isDigit && d3.isDigit then String.mk (rest.reverse ++ ['Z']) else s
  | _ => s

/-- Source `isoUtc(date)`: `date.toISOString().replace(/\.\d{3}Z$/, "Z")`. -/
def isoUtc (date : Option Int) : Except JsError String :=
  (toISOString date).map replaceMillis

/-! ## Values and the codec -/

/-- A JS value as `toFsValue` can receive it. A `Date` carries its time value
(`none` for `NaN`); an object is the list of its own enumerable string-keyed
properties in enumeration order, which is what `Object.entries` returns. -/
inductive JsValue
  | null
  | undefined
  | bool (b : Bool)
  | number (x : JsNumber)
  | date (tv : Option Int)
  | array (items : List JsValue)
  | object (entries : List (String × JsValue))
  | string (s : String)

/-- The object `toFsValue` returns: one property, named by the kind. -/
inductive WireValue
  | nullValue
  | booleanValue (b : Bool)
  | integerValue (s : String)
  | doubleValue (x : JsNumber)
  | timestampValue (s : String)
  | arrayValue (values : List WireValue)
  | mapValue (fields : List (String × WireValue))
  | stringValue (s : String)

/-- The object `toFsFields` returns: `{ fields: ... }`. -/
structure WireDocument where
  fields : List (String × WireValue)

/-- Define property `k` with value `v` on a property list: an existing
property keeps its position and takes the new value, a new one goes last. -/
def setField {α : Type} : List (String × α) → String → α → List (String × α)
  | [], k, v => [(k, v)]
  | (k1, v1) :: rest, k, v =>
    if k1 = k then (k1, v) :: rest else (k1, v1) :: setField rest k v

/-- Built-in `Object.fromEntries(entries)`: define each entry in turn on a fresh object. -/
def fromEntries {α : Type} (entries : List (String × α)) : List (String × α) :=
  entries.foldl (fun acc e => setField acc e.1 e.2) []

mutual
/-- Source `toFsValue(v)`. -/
def toFsValue : JsValue → Except JsError WireValue
  | .null => .ok .nullValue
  | .undefined => .ok .nullValue
  | .bool b => .ok (.booleanValue b)
  | .number x =>
    match x.asInteger with
    | some n => .ok (.integerValue (intNumberToString n))
    | none => .ok (.doubleValue x)
  | .date tv =>
    match isoUtc tv with
    | .ok s => .ok (.timestampValue s)
    | .error e => .error e
  | .array items =>
    match mapToFsValue items with
    | .ok ws => .ok (.arrayValue ws)
    | .error e => .error e
  | .object entries =>
    match entriesToFsValue entries with
    | .ok es => .ok (.mapValue (fromEntries es))
    | .error e => .error e
  | .string s => .ok (.stringValue s)
/-- Source `v.map(toFsValue)`: the elements in order, stopping at the first throw. -/
def mapToFsValue : List JsValue → Except JsError (List WireValue)
  | [] => .ok []
  | v :: vs =>
    match toFsValue v with
    | .ok w =>
      match mapToFsValue vs with
      | .ok ws => .ok (w :: ws)
      | .error e => .error e
    | .error e => .error e
/-- Source `Object.entries(v).map(([k, val]) => [k, toFsValue(val)])`. -/
def entriesToFsValue : List (String × JsValue) → Except JsError (List (String × WireValue))
  | [] => .ok []
  | (k, v) :: rest =>
    match toFsValue v with
    | .ok w =>
      match entriesToFsValue rest with
      | .ok es => .ok ((k, w) :: es)
      | .error e => .error e
    | .error e => .error e
end

mutual
/-- Source `toFsValue(v)` run on a call stack that holds `frames` nested calls
of `toFsValue`: a call that finds no frame left throws the engine's
`RangeError`, every nested call has one frame less. -/
def toFsValueWithin : Nat → JsValue → Except JsError WireValue
  | frames, .null => if frames = 0 then .error stackOverflow else .ok .nullValue
  | frames, .undefined => if frames = 0 then .error stackOverflow else .ok .nullValue
  | frames, .bool b => if frames = 0 then .error stackOverflow else .ok (.booleanValue b)
  | frames, .number x =>
    if frames = 0 then .error stackOverflow
    else
      match x.asInteger with
      | some n => .ok (.integerValue (intNumberToString n))
      | none => .ok (.doubleValue x)
  | frames, .date tv =>
    if frames = 0 then .error stackOverflow
    else
      match isoUtc tv with
      | .ok s => .ok (.timestampValue s)
      | .error e => .error e
  | frames, .array items =>
    if frames = 0 then .error stackOverflow
    else
      match mapToFsValueWithin (frames - 1) items with
      | .ok ws => .ok (.arrayValue ws)
      | .error e => .error e
  | frames, .object entries =>
    if frames = 0 then .error stackOverflow
    else
      match entriesToFsValueWithin (frames - 1) entries with
      | .ok es => .ok (.mapValue (fromEntries es))
      | .error e => .error e
  | frames, .string s => if frames = 0 then .error stackOverflow else .ok (.stringValue s)
/-- Source `v.map(toFsValue)` with `frames` frames left for each element. -/
def mapToFsValueWithin : Nat → List JsValue → Except JsError (List WireValue)
  | _, [] => .ok []
  | frames, v :: vs =>
    match toFsValueWithin frames v with
    | .ok w =>
      match mapToFsValueWithin frames vs with
      | .ok ws => .ok (w :: ws)
      | .error e => .error e
    | .error e => .error e
/-- Source `Object.entries(v).map(...)` with `frames` frames left for each value. -/
def entriesToFsValueWithin :
    Nat → List (String × JsValue) → Except JsError (List (String × WireValue))
  | _, [] => .ok []
  | frames, (k, v) :: rest =>
    match toFsValueWithin frames v with
    | .ok w =>
      match entriesToFsValueWithin frames rest with
      | .ok es => .ok ((k, w) :: es)
      | .error e => .error e
    | .error e => .error e
end

mutual
/-- Nesting depth of a value: 1 for a scalar, one more than the deepest
element or property value for an array or an object. -/
def JsValue.depth : JsValue → Nat
  | .array items => maxDepth items + 1
  | .object entries => maxDepthEntries entries + 1
  | _ => 1
/-- Depth of the deepest element of an array (0 if there is none). -/
def maxDepth : List JsValue → Nat
  | [] => 0
  | v :: vs => max v.depth (maxDepth vs)
/-- Depth of the deepest property value of an object (0 if there is none). -/
def maxDepthEntries : List (String × JsValue) → Nat
  | [] => 0
  | (_, v) :: rest => max v.depth (maxDepthEntries rest)
end

/-- Source `toFsFields(doc)` for an object `doc` given by its entries. -/
def toFsFields (doc : List (String × JsValue)) : Except JsError WireDocument :=
  match entriesToFsValue doc with
  | .ok es => .ok { fields := fromEntries es }
  | .error e => .error e

/-! ## Configuration, URLs and requests -/

/-- The process environment variables the script reads. -/
structure Env where
  projectId : Option String
  firestoreToken : Option String

/-- Source `USE_FUNCTIONS`. -/
def USE_FUNCTIONS : Bool := false

/-- Source `process.env.X || dflt`: an unset or empty variable gives the default. -/
def envOr (x : Option String) (dflt : String) : String :=
  match x with
  | some v => if v = "" then dflt else v
  | none => dflt

/-- Source `PROJECT_ID`. -/
def PROJECT_ID (env : Env) : String := envOr env.projectId "smart-meeting-assistant-1a3c8"

/-- Source `FS_BASE`. -/
def FS_BASE (env : Env) : String :=
  "https://firestore.googleapis.com/v1/projects/" ++ PROJECT_ID env ++
    "/databases/(default)/documents/meetings"

/-- Source `FIRESTORE_BEARER_TOKEN`: `process.env.FIRESTORE_TOKEN || null`. -/
def FIRESTORE_BEARER_TOKEN (env : Env) : Option String :=
  match env.firestoreToken with
  | some v => if v = "" then none else some v
  | none => none

/-- Upper-case hexadecimal digit. -/
def hexDigit (d : Nat) : Char :=
  if d < 10 then Char.ofNat (48 + d) else Char.ofNat (55 + d)

/-- The UTF-8 octets of a code point. -/
def utf8Bytes (c : Nat) : List Nat :=
  if c < 0x80 then [c]
  else if c < 0x800 then [0xC0 + c / 64, 0x80 + c % 64]
  else if c < 0x10000 then [0xE0 + c / 4096, 0x80 + c / 64 % 64, 0x80 + c % 64]
  else [0xF0 + c / 262144, 0x80 + c / 4096 % 64, 0x80 + c / 64 % 64, 0x80 + c % 64]

/-- The characters `encodeURIComponent` leaves as they are: ASCII letters,
digits and the marks `- _ . ! ~ * ' ( )`. -/
def uriUnescaped (c : Char) : Bool :=
  c.isAlphanum || [45, 95, 46, 33, 126, 42, 39, 40, 41].contains c.toNat

/-- Built-in `encodeURIComponent(s)`: every other character becomes `%XX` for each of
its UTF-8 octets. -/
def encodeURIComponent (s : String) : String :=
  String.mk (s.data.flatMap fun c =>
    if uriUnescaped c then [c]
    else (utf8Bytes c.toNat).flatMap fun b => ['%', hexDigit (b / 16), hexDigit (b % 16)])

/-- Built-in `parts.join(sep)`. -/
def joinWith (sep : String) : List String → String
  | [] => ""
  | [a] => a
  | a :: b :: rest => a ++ sep ++ joinWith sep (b :: rest)

/-- Source `headersJSON()` with no extra headers. -/
def headersJSON (env : Env) : List (String × String) :=
  let h := [("Content-Type", "application/json")]
  match FIRESTORE_BEARER_TOKEN env with
  | some tok => if !USE_FUNCTIONS then setField h "Authorization" ("Bearer " ++ tok) else h
  | none => h

/-- The arguments of one call of `http`. -/
structure HttpCall where
  method : String
  url : String
  body : Option WireDocument
  headers : List (String × String)

/-- Source `fsCreateMeeting(meetingId, data)`, up to the call of `http`. -/
def fsCreateMeeting (env : Env) (meetingId : Option String) (data : List (String × JsValue)) :
    Except JsError HttpCall :=
  let url :=
    match meetingId with
    | some id => if id = "" then FS_BASE env
                 else FS_BASE env ++ "?documentId=" ++ encodeURIComponent id
    | none => FS_BASE env
  match toFsFields data with
  | .ok doc => .ok { method := "POST", url := url, body := some doc, headers := headersJSON env }
  | .error e => .error e

/-- The options object of `fsPatchMeeting`; an absent property is `none`. -/
structure PatchOptions where
  replaceAll : Option Bool
  fields : Option (List String)

/-- The update-mask query of `fsPatchMeeting`. -/
def updateMasks (fields : List String) : String :=
  joinWith "&" (fields.map fun f => "updateMask.fieldPaths=" ++ encodeURIComponent f)

/-- Source `fsPatchMeeting(meetingId, data, { replaceAll = true, fields = [] } = {})`,
up to the call of `http`. -/
def fsPatchMeeting (env : Env) (meetingId : String) (data : List (String × JsValue))
    (options : Option PatchOptions) : Except JsError HttpCall :=
  let opts := options.getD { replaceAll := none, fields := none }
  let replaceAll := opts.replaceAll.getD true
  let fields := opts.fields.getD []
  let url := FS_BASE env ++ "/" ++ encodeURIComponent meetingId
  let url := if !replaceAll && fields.length != 0 then url ++ "?" ++ updateMasks fields else url
  match toFsFields data with
  | .ok doc => .ok { method := "PATCH", url := url, body := some doc, headers := headersJSON env }
  | .error e => .error e

/-! ## The transport wrapper -/

/-- What `http` reads of a `fetch` response; `J` is the type of parsed JSON.
`text` and `json` are the outcomes of `res.text()` and `res.json()`;
`contentType` is `res.headers.get("content-type")` (`none` for `null`). -/
structure Response (J : Type) where
  ok : Bool
  status : Nat
  statusText : String
  contentType : Option String
  text : Except JsError String
  json : Except JsError J

/-- Built-in `s.includes(sub)`. -/
def includes (s sub : String) : Bool :=
  s.data.tails.any fun t => sub.data.isPrefixOf t

/-- Source `http(method, url, body, headers)` from the response on: the
outcome of the call given the response `fetch` resolved with
(`.ok none` is a return of `undefined`). -/
def http {J : Type} (method url : String) (res : Response J) : Except JsError (Option J) :=
  if !res.ok then
    let text := match res.text with
      | .ok t => t
      | .error _ => ""
    .error (.error (method ++ " " ++ url ++ " -> " ++ natNumberToString res.status ++ " " ++
      res.statusText ++ "\n" ++ text))
  else
    let ct := res.contentType.getD ""
    if includes ct "application/json" then
      match res.json with
      | .ok j => .ok (some j)
      | .error e => .error e
    else .ok none

/-- The record of the end-to-end scenario. -/
def demoRecord : List (String × JsValue) :=
  [("title", .string "Demo"),
   ("duration", .number (.finite 45)),
   ("participants", .array [.string "a@x.com", .string "b@x.com"]),
   ("status", .string "scheduled")]

/-- The expected wire document of the end-to-end scenario. -/
def demoDocument : WireDocument :=
  { fields :=
      [("title", .stringValue "Demo"),
       ("duration", .integerValue "45"),
       ("participants", .arrayValue [.stringValue "a@x.com", .stringValue "b@x.com"]),
       ("status", .stringValue "scheduled")] }

/-! ## Reference notions used to state the properties -/

/-- Value of a digit string read in base ten. -/
def parseNat (ds : List Char) : Nat :=
  ds.foldl (fun acc c => acc * 10 + (c.toNat - 48)) 0

/-- A decimal digit string with an optional leading minus sign. -/
def isDecimalString (s : String) : Bool :=
  match s.data with
  | '-' :: ds => !ds.isEmpty && ds.all Char.isDigit
  | ds => !ds.isEmpty && ds.all Char.isDigit

/-- The integer a decimal digit string denotes (`none` for any other string). -/
def parseDecimal (s : String) : Option Int :=
  if isDecimalString s then
    match s.data with
    | '-' :: ds => some (-(parseNat ds : Int))
    | ds => some (parseNat ds : Int)
  else none

/-- The decimal expansion of an integer: a minus sign for a negative one, then
the base-ten digits of its magnitude, most significant first and with no
leading zero (`0` alone for zero). -/
def decimalExpansion (n : Int) : String :=
  String.mk ((if n < 0 then ['-'] else []) ++
    (if n = 0 then ['0'] else (Nat.digits 10 n.natAbs).reverse.map digitChar))

/-- The Number an integer literal denotes: the nearest binary64 value
(`none` when out of range). -/
def numberOfInt (m : Int) : Option Int :=
  match roundToDouble m.natAbs with
  | some r => some (if m < 0 then -Int.ofNat r else Int.ofNat r)
  | none => none

/-- The name of the single property of a wire value. -/
def WireValue.kindTag : WireValue → String
  | .nullValue => "nullValue"
  | .booleanValue _ => "booleanValue"
  | .integerValue _ => "integerValue"
  | .doubleValue _ => "doubleValue"
  | .timestampValue _ => "timestampValue"
  | .arrayValue _ => "arrayValue"
  | .mapValue _ => "mapValue"
  | .stringValue _ => "stringValue"

mutual
/-- Every `Date` inside the value has a time value (none is an Invalid Date). -/
def JsValue.datesValid : JsValue → Bool
  | .date tv => tv.isSome
  | .array items => allDatesValid items
  | .object entries => entriesDatesValid entries
  | _ => true
/-- Check of `datesValid` for every element of an array. -/
def allDatesValid : List JsValue → Bool
  | [] => true
  | v :: vs => v.datesValid && allDatesValid vs
/-- Check of `datesValid` for every property value of an object. -/
def entriesDatesValid : List (String × JsValue) → Bool
  | [] => true
  | (_, v) :: rest => v.datesValid && entriesDatesValid rest
end

/-- An integral Number is exactly representable (true of every JS number;
other Numbers are taken as they are). -/
def JsNumber.isDouble (x : JsNumber) : Bool :=
  match x.asInteger with
  | some n => isDoubleInt n
  | none => true

/-- The Number is the negative zero. -/
def JsNumber.isNegZero : JsNumber → Bool
  | .negZero => true
  | _ => false

mutual
/-- A Native Value of the data model that its wire value determines:
no `undefined`, every `Date` valid with no millisecond part, no negative zero,
every integral Number exactly representable, every record with pairwise
distinct keys. -/
def JsValue.recoverable : JsValue → Bool
  | .null => true
  | .undefined => false
  | .bool _ => true
  | .number x => x.isDouble && !x.isNegZero
  | .date tv =>
    match tv with
    | some t => t % 1000 == 0
    | none => false
  | .array items => allRecoverable items
  | .object entries => decide ((entries.map Prod.fst).Nodup) && entriesRecoverable entries
  | .string _ => true
/-- Check of `recoverable` for every element of an array. -/
def allRecoverable : List JsValue → Bool
  | [] => true
  | v :: vs => v.recoverable && allRecoverable vs
/-- Check of `recoverable` for every property value of an object. -/
def entriesRecoverable : List (String × JsValue) → Bool
  | [] => true
  | (_, v) :: rest => v.recoverable && entriesRecoverable rest
end

/-- The kind tag the encoding of a value carries, by the kind of the value:
null and undefined give `nullValue`, a boolean `booleanValue`, an integral
Number `integerValue`, any other Number `doubleValue`, a timestamp
`timestampValue`, an array `arrayValue`, a record `mapValue`, a string
`stringValue`. -/
def JsValue.expectedTag : JsValue → String
  | .null => "nullValue"
  | .undefined => "nullValue"
  | .bool _ => "booleanValue"
  | .number x => if x.isInteger then "integerValue" else "doubleValue"
  | .date _ => "timestampValue"
  | .array _ => "arrayValue"
  | .object _ => "mapValue"
  | .string _ => "stringValue"

/-- The eight kind tags of the wire format. -/
def kindTags : List String :=
  ["nullValue", "booleanValue", "integerValue", "doubleValue", "timestampValue",
   "arrayValue", "mapValue", "stringValue"]

/-! ## The built-in models on known outputs -/

/-- The model of `String(v)` agrees with JS on integers around the edges of
the plain and the exponential format. -/
theorem intNumberToString_known_outputs :
    intNumberToString 0 = "0" ∧ intNumberToString (-45) = "-45" ∧
    intNumberToString (2 ^ 53) = "9007199254740992" ∧
    intNumberToString (2 ^ 60) = "1152921504606847000" ∧
    intNumberToString 123456789012345680000 = "123456789012345680000" ∧
    intNumberToString 1234567890123456800000 = "1.2345678901234568e+21" ∧
    intNumberToString 99999999999999991611392 = "1e+23" ∧
    intNumberToString (-(10 ^ 21)) = "-1e+21" := by
  refine ⟨by decide!, by decide!, by decide!, by decide!, by decide!, by decide!, by decide!,
    by decide!⟩

/-- The model of `toISOString` agrees with JS on dates across leap days, the
epoch, the four-digit year range and the ends of the time value range. -/
theorem toISOString_known_outputs :
    toISOString (some 1762387200123) = .ok "2025-11-06T00:00:00.123Z" ∧
    toISOString (some 951782400000) = .ok "2000-02-29T00:00:00.000Z" ∧
    toISOString (some (-1)) = .ok "1969-12-31T23:59:59.999Z" ∧
    toISOString (some 253402300799999) = .ok "9999-12-31T23:59:59.999Z" ∧
    toISOString (some 253402300800000) = .ok "+010000-01-01T00:00:00.000Z" ∧
    toISOString (some (-62167219200000)) = .ok "0000-01-01T00:00:00.000Z" ∧
    toISOString (some (-62198755200000)) = .ok "-000001-01-01T00:00:00.000Z" ∧
    toISOString (some 8640000000000000) = .ok "+275760-09-13T00:00:00.000Z" ∧
    toISOString (some (-8640000000000000)) = .ok "-271821-04-20T00:00:00.000Z" := by
  refine ⟨by decide, by decide, by decide, by decide, by decide, by decide, by decide,
    by decide, by decide⟩

/-- The model of `encodeURIComponent` keeps the unreserved marks and escapes
every other character by its UTF-8 octets. -/
theorem encodeURIComponent_known_outputs :
    encodeURIComponent "mtg_1a2b-3c.d!~*()" = "mtg_1a2b-3c.d!~*()" ∧
    encodeURIComponent "a b/c?d=e&f" = "a%20b%2Fc%3Fd%3De%26f" ∧
    encodeURIComponent "ñ€😀" = "%C3%B1%E2%82%AC%F0%9F%98%80" := by
  refine ⟨by decide, by decide, by decide⟩

/-! ## Lists, property lists and strings -/

theorem setField_of_not_mem {α : Type} (fs : List (String × α)) (k : String) (v : α)
    (h : k ∉ fs.map Prod.fst) : setField fs k v = fs ++ [(k, v)] := by
  induction fs with
  | nil => rfl
  | cons e rest ih =>
    obtain ⟨k1, v1⟩ := e
    simp only [List.map_cons, List.mem_cons, not_or] at h
    have hne : ¬ k1 = k := fun hk => h.1 hk.symm
    simp [setField, hne, ih h.2]

theorem foldl_setField_nodup {α : Type} (es acc : List (String × α))
    (h : ((acc ++ es).map Prod.fst).Nodup) :
    es.foldl (fun a e => setField a e.1 e.2) acc = acc ++ es := by
  induction es generalizing acc with
  | nil => simp
  | cons e rest ih =>
    have hk : e.1 ∉ acc.map Prod.fst := by
      intro hmem
      rw [List.map_append, List.map_cons] at h
      have := (List.nodup_append.mp h).2.2
      exact this hmem (List.mem_cons_self _ _)
    rw [List.foldl_cons, setField_of_not_mem acc e.1 e.2 hk]
    have h2 : (((acc ++ [(e.1, e.2)]) ++ rest).map Prod.fst).Nodup := by
      simpa [List.append_assoc] using h
    rw [ih _ h2]
    simp

/-- On entries with pairwise distinct keys `Object.fromEntries` keeps every
entry, in order. -/
theorem fromEntries_of_nodup {α : Type} (es : List (String × α))
    (h : (es.map Prod.fst).Nodup) : fromEntries es = es := by
  have := foldl_setField_nodup es [] (by simpa using h)
  simpa [fromEntries] using this

theorem intercalate_go_cons (sep acc b : String) (rest : List String) :
    String.intercalate.go acc sep (b :: rest) = acc ++ sep ++ String.intercalate.go b sep rest := by
  induction rest generalizing acc b with
  | nil => simp [String.intercalate.go]
  | cons c rest ih =>
    rw [String.intercalate.go, ih, ih b c]
    simp [String.append_assoc]

theorem joinWith_eq_intercalate (sep : String) (parts : List String) :
    joinWith sep parts = sep.intercalate parts := by
  cases parts with
  | nil => rfl
  | cons a rest =>
    induction rest generalizing a with
    | nil => simp [joinWith, String.intercalate, String.intercalate.go]
    | cons b rest ih =>
      rw [joinWith, ih b]
      simp only [String.intercalate]
      rw [intercalate_go_cons]

/-! ## Decimal digits -/

theorem natDigitsAux_fuel (f n : Nat) (h : n < f) :
    natDigitsAux f n = natDigitsAux (n + 1) n := by
  induction f using Nat.strong_induction_on generalizing n with
  | _ f ih =>
    cases f with
    | zero => omega
    | succ f1 =>
      by_cases h10 : n < 10
      · simp [natDigitsAux, h10]
      · have hn : n / 10 < n := by omega
        have e1 : natDigitsAux f1 (n / 10) = natDigitsAux (n / 10 + 1) (n / 10) :=
          ih f1 (by omega) (n / 10) (by omega)
        have e2 : natDigitsAux n (n / 10) = natDigitsAux (n / 10 + 1) (n / 10) :=
          ih n (by omega) (n / 10) hn
        simp [natDigitsAux, h10, e1, e2]

theorem natDigits_lt_ten (n : Nat) (h : n < 10) : natDigits n = [digitChar n] := by
  simp [natDigits, natDigitsAux, h]

theorem natDigits_ge_ten (n : Nat) (h : 10 ≤ n) :
    natDigits n = natDigits (n / 10) ++ [digitChar (n % 10)] := by
  have h10 : ¬ n < 10 := by omega
  have e : natDigitsAux n (n / 10) = natDigitsAux (n / 10 + 1) (n / 10) :=
    natDigitsAux_fuel n (n / 10) (by omega)
  simp [natDigits, natDigitsAux, h10, e]

theorem digitChar_toNat (d : Nat) (h : d < 10) : (digitChar d).toNat = 48 + d := by
  interval_cases d <;> rfl

theorem digitChar_isDigit (d : Nat) (h : d < 10) : (digitChar d).isDigit = true := by
  interval_cases d <;> rfl

theorem parseNat_append_singleton (ds : List Char) (c : Char) :
    parseNat (ds ++ [c]) = parseNat ds * 10 + (c.toNat - 48) := by
  simp [parseNat, List.foldl_append]

/-- Reading the decimal digits of `n` gives `n` back. -/
theorem parseNat_natDigits (n : Nat) : parseNat (natDigits n) = n := by
  induction n using Nat.strong_induction_on with
  | _ n ih =>
    by_cases h : n < 10
    · rw [natDigits_lt_ten n h]
      simp [parseNat, digitChar_toNat n h]
    · rw [natDigits_ge_ten n (by omega), parseNat_append_singleton, ih (n / 10) (by omega),
        digitChar_toNat (n % 10) (by omega)]
      omega

theorem natDigits_all_isDigit (n : Nat) : ∀ c ∈ natDigits n, c.isDigit = true := by
  induction n using Nat.strong_induction_on with
  | _ n ih =>
    by_cases h : n < 10
    · rw [natDigits_lt_ten n h]
      intro c hc
      simp only [List.mem_singleton] at hc
      subst hc
      exact digitChar_isDigit n h
    · rw [natDigits_ge_ten n (by omega)]
      intro c hc
      rcases List.mem_append.mp hc with h1 | h1
      · exact ih (n / 10) (by omega) c h1
      · simp only [List.mem_singleton] at h1
        subst h1
        exact digitChar_isDigit (n % 10) (by omega)

theorem natDigits_ne_nil (n : Nat) : natDigits n ≠ [] := by
  by_cases h : n < 10
  · rw [natDigits_lt_ten n h]; simp
  · rw [natDigits_ge_ten n (by omega)]; simp

theorem natDigits_injective (a b : Nat) (h : natDigits a = natDigits b) : a = b := by
  rw [← parseNat_natDigits a, ← parseNat_natDigits b, h]

/-- A number below `10 ^ k` has at most `k` digits. -/
theorem numDigits_le (k n : Nat) (hk : 1 ≤ k) (h : n < 10 ^ k) : numDigits n ≤ k := by
  induction k generalizing n with
  | zero => omega
  | succ k ih =>
    by_cases h10 : n < 10
    · simp [numDigits, natDigits_lt_ten n h10]
    · have hk1 : 1 ≤ k := by
        rcases Nat.eq_zero_or_pos k with h0 | h0
        · subst h0; simp at h; omega
        · exact h0
      have hdiv : n / 10 < 10 ^ k := by
        rw [Nat.div_lt_iff_lt_mul (by decide)]
        rw [pow_succ] at h
        exact h
      have := ih (n / 10) hk1 hdiv
      simp only [numDigits] at this ⊢
      rw [natDigits_ge_ten n (by omega)]
      simp
      exact this

/-- A number with `d` digits is below `10 ^ d`. -/
theorem lt_pow_numDigits (n : Nat) : n < 10 ^ numDigits n := by
  induction n using Nat.strong_induction_on with
  | _ n ih =>
    by_cases h : n < 10
    · simp [numDigits, natDigits_lt_ten n h]; exact h
    · have := ih (n / 10) (by omega)
      simp only [numDigits] at this ⊢
      rw [natDigits_ge_ten n (by omega)]
      simp only [List.length_append, List.length_singleton, pow_succ]
      omega

/-! ## Rounding to binary64 -/

theorem bitLengthAux_le_iff (f n : Nat) (h : n ≤ f) (k : Nat) :
    bitLengthAux f n ≤ k ↔ n < 2 ^ k := by
  induction f generalizing n k with
  | zero =>
    have : n = 0 := by omega
    subst this
    simp [bitLengthAux]
  | succ f ih =>
    by_cases h0 : n = 0
    · subst h0; simp [bitLengthAux]
    · simp only [bitLengthAux, h0, if_false]
      cases k with
      | zero => simp; omega
      | succ k =>
        rw [Nat.succ_le_succ_iff, ih (n / 2) (by omega) k, pow_succ]
        omega

theorem bitLength_le_iff (n k : Nat) : bitLength n ≤ k ↔ n < 2 ^ k :=
  bitLengthAux_le_iff n n (le_refl n) k

/-- Integers below `2 ^ 53` are binary64 values. -/
theorem roundToDouble_of_lt (v : Nat) (h : v < 2 ^ 53) : roundToDouble v = some v := by
  have hb : bitLength v ≤ 53 := (bitLength_le_iff v 53).mpr h
  simp [roundToDouble, hb]

theorem le_roundSignificand (v sh : Nat) : v / 2 ^ sh ≤ roundSignificand v sh := by
  unfold roundSignificand
  simp only
  split <;> omega

theorem roundToDouble_shape (v x : Nat) (hb : ¬ bitLength v ≤ 53)
    (h : roundToDouble v = some x) :
    x = roundSignificand v (bitLength v - 53) * 2 ^ (bitLength v - 53) := by
  unfold roundToDouble at h
  simp only [hb, if_false] at h
  by_cases hov : roundSignificand v (bitLength v - 53) * 2 ^ (bitLength v - 53) < 2 ^ 1024
  · rw [if_pos hov] at h
    exact (Option.some.inj h).symm
  · rw [if_neg hov] at h
    cases h

/-- Rounding never takes an integer from `2 ^ 53` on to one below `2 ^ 53`. -/
theorem roundToDouble_ge (v x : Nat) (hv : 2 ^ 53 ≤ v) (h : roundToDouble v = some x) :
    2 ^ 53 ≤ x := by
  have hb : ¬ bitLength v ≤ 53 := by
    rw [bitLength_le_iff]; omega
  have hlow : 2 ^ (bitLength v - 1) ≤ v := by
    by_contra hc
    have := (bitLength_le_iff v (bitLength v - 1)).mpr (by omega)
    omega
  rw [roundToDouble_shape v x hb h]
  have hsh : bitLength v - 1 = 52 + (bitLength v - 53) := by omega
  rw [hsh, pow_add] at hlow
  have hp : 0 < 2 ^ (bitLength v - 53) := by positivity
  have hq : 2 ^ 52 ≤ v / 2 ^ (bitLength v - 53) := by
    rw [Nat.le_div_iff_mul_le hp]; exact hlow
  have h2 : 2 ≤ 2 ^ (bitLength v - 53) := by
    have : 1 ≤ bitLength v - 53 := by omega
    calc 2 = 2 ^ 1 := by norm_num
      _ ≤ 2 ^ (bitLength v - 53) := Nat.pow_le_pow_right (by norm_num) this
  have hq1 := le_trans hq (le_roundSignificand v (bitLength v - 53))
  calc 2 ^ 53 = 2 ^ 52 * 2 := by norm_num
    _ ≤ _ := Nat.mul_le_mul hq1 h2

/-- Below `2 ^ 53` only the integer itself rounds to it. -/
theorem roundToDouble_exact (v x : Nat) (hx : x < 2 ^ 53) (h : roundToDouble v = some x) :
    v = x := by
  by_cases hv : v < 2 ^ 53
  · rw [roundToDouble_of_lt v hv] at h
    exact Option.some.inj h
  · have := roundToDouble_ge v x (by omega) h
    omega

/-! ## The digit search of `Number::toString` -/

theorem shortestCandidate_sound (x j v : Nat) (h : shortestCandidate x j = some v) :
    roundToDouble v = some x := by
  unfold shortestCandidate at h
  simp only at h
  split_ifs at h with h1 h2 h3 h4 h5 h6
  all_goals first
    | (simp only [Bool.and_eq_true, beq_iff_eq] at h1
       cases h
       first | exact h1.1 | exact h1.2)
    | (simp only [beq_iff_eq] at h5
       cases h
       exact h5)
    | (simp only [beq_iff_eq] at h6
       cases h
       exact h6)

theorem shortestCandidate_le (x j v : Nat) (h : shortestCandidate x j = some v) :
    v ≤ x / 10 ^ j * 10 ^ j + 10 ^ j := by
  unfold shortestCandidate at h
  simp only at h
  split_ifs at h <;> cases h <;> first | exact Nat.le_add_right _ _ | exact le_refl _

/-- The search returns `x` itself or one of the candidates. -/
theorem shortestFrom_cases (x d fuel k : Nat) :
    shortestFrom x d fuel k = x ∨
      ∃ j, j ≤ d ∧ shortestCandidate x j = some (shortestFrom x d fuel k) := by
  induction fuel generalizing k with
  | zero => left; rfl
  | succ fuel ih =>
    unfold shortestFrom
    by_cases hd : d < k
    · left; simp [hd]
    · simp only [hd, if_false]
      cases hc : shortestCandidate x (d - k) with
      | none => simpa using ih (k + 1)
      | some v => right; exact ⟨d - k, by omega, by simpa using hc⟩

/-- The decimal chosen for a binary64 integer `x` denotes `x`: it rounds to `x`. -/
theorem shortestDecimal_sound (x : Nat) (hx : roundToDouble x = some x) :
    roundToDouble (shortestDecimal x) = some x := by
  rcases shortestFrom_cases x (numDigits x) 17 1 with h | ⟨j, _, h⟩
  · unfold shortestDecimal; rw [h]; exact hx
  · exact shortestCandidate_sound x j _ h

theorem shortestDecimal_le (x : Nat) : shortestDecimal x ≤ 10 ^ numDigits x := by
  have hx := lt_pow_numDigits x
  rcases shortestFrom_cases x (numDigits x) 17 1 with h | ⟨j, hj, h⟩
  · unfold shortestDecimal; rw [h]; omega
  · have hle := shortestCandidate_le x j _ h
    have hsplit : 10 ^ numDigits x = 10 ^ (numDigits x - j) * 10 ^ j := by
      rw [← pow_add]; congr 1; omega
    have hp : 0 < 10 ^ j := by positivity
    have hq : x / 10 ^ j < 10 ^ (numDigits x - j) := by
      rw [Nat.div_lt_iff_lt_mul hp, ← hsplit]; exact hx
    have : (x / 10 ^ j + 1) * 10 ^ j ≤ 10 ^ (numDigits x - j) * 10 ^ j :=
      Nat.mul_le_mul_right _ hq
    unfold shortestDecimal
    rw [hsplit]
    calc _ ≤ x / 10 ^ j * 10 ^ j + 10 ^ j := hle
      _ = (x / 10 ^ j + 1) * 10 ^ j := by ring
      _ ≤ _ := this

/-- Below `2 ^ 53` the digit search returns the integer itself. -/
theorem shortestDecimal_of_lt (x : Nat) (hx : x < 2 ^ 53) : shortestDecimal x = x :=
  roundToDouble_exact _ x hx (shortestDecimal_sound x (roundToDouble_of_lt x hx))

theorem roundToDouble_ten_pow_21 : roundToDouble (10 ^ 21) = some (10 ^ 21) := by decide!

/-- Below `10 ^ 21` the rendering of a binary64 integer is the plain digit
string of the decimal chosen by the search. -/
theorem natNumberToString_of_lt (x : Nat) (hx : roundToDouble x = some x) (hlt : x < 10 ^ 21) :
    natNumberToString x = natToString (shortestDecimal x) := by
  have hd : numDigits x ≤ 21 := numDigits_le 21 x (by norm_num) hlt
  have hle := shortestDecimal_le x
  have hpow : 10 ^ numDigits x ≤ 10 ^ 21 := Nat.pow_le_pow_right (by norm_num) hd
  have hne : shortestDecimal x ≠ 10 ^ 21 := by
    intro he
    have hs := shortestDecimal_sound x hx
    rw [he, roundToDouble_ten_pow_21] at hs
    have := Option.some.inj hs
    omega
  have hv : numDigits (shortestDecimal x) ≤ 21 :=
    numDigits_le 21 _ (by norm_num) (by omega)
  unfold natNumberToString
  simp [hv]

/-- Below `2 ^ 53` the rendering is the decimal expansion of the integer. -/
theorem natNumberToString_of_safe (x : Nat) (hx : x < 2 ^ 53) :
    natNumberToString x = natToString x := by
  rw [natNumberToString_of_lt x (roundToDouble_of_lt x hx) (by
    have : (2 : Nat) ^ 53 < 10 ^ 21 := by norm_num
    omega), shortestDecimal_of_lt x hx]

/-! ## Integers through the codec -/

theorem isDecimalString_digits (ds : List Char) (hne : ds ≠ [])
    (hall : ∀ c ∈ ds, c.isDigit = true) : isDecimalString (String.mk ds) = true := by
  cases ds with
  | nil => exact absurd rfl hne
  | cons c cs =>
    have hc : c ≠ '-' := by
      intro h
      have := hall c (List.mem_cons_self _ _)
      rw [h] at this
      exact absurd this (by decide)
    unfold isDecimalString
    split
    · rename_i ds1 heq
      simp only [List.cons.injEq] at heq
      exact absurd heq.1 hc
    · simpa using hall

theorem parseDecimal_digits (ds : List Char) (hne : ds ≠ [])
    (hall : ∀ c ∈ ds, c.isDigit = true) :
    parseDecimal (String.mk ds) = some (parseNat ds : Int) := by
  have h1 := isDecimalString_digits ds hne hall
  cases ds with
  | nil => exact absurd rfl hne
  | cons c cs =>
    have hc : c ≠ '-' := by
      intro h
      have := hall c (List.mem_cons_self _ _)
      rw [h] at this
      exact absurd this (by decide)
    unfold parseDecimal
    rw [if_pos h1]
    split
    · rename_i ds1 heq
      simp only [List.cons.injEq] at heq
      exact absurd heq.1 hc
    · rfl

theorem isDecimalString_neg_digits (ds : List Char) (hne : ds ≠ [])
    (hall : ∀ c ∈ ds, c.isDigit = true) : isDecimalString ("-" ++ String.mk ds) = true := by
  have hd : ("-" ++ String.mk ds).data = '-' :: ds := rfl
  unfold isDecimalString
  rw [hd]
  cases ds with
  | nil => exact absurd rfl hne
  | cons c cs => simpa using hall

theorem parseDecimal_neg_digits (ds : List Char) (hne : ds ≠ [])
    (hall : ∀ c ∈ ds, c.isDigit = true) :
    parseDecimal ("-" ++ String.mk ds) = some (-(parseNat ds : Int)) := by
  have h1 := isDecimalString_neg_digits ds hne hall
  have hd : ("-" ++ String.mk ds).data = '-' :: ds := rfl
  unfold parseDecimal
  rw [if_pos h1, hd]
  rfl

/-- The digits rendered are the base-ten digits of the number. -/
theorem natDigits_eq_digits (n : Nat) (hn : 0 < n) :
    natDigits n = (Nat.digits 10 n).reverse.map digitChar := by
  induction n using Nat.strong_induction_on with
  | _ n ih =>
    by_cases h : n < 10
    · rw [natDigits_lt_ten n h, Nat.digits_of_lt 10 n (by omega) h]
      rfl
    · rw [natDigits_ge_ten n (by omega), ih (n / 10) (by omega) (by omega),
        Nat.digits_def' (by norm_num) hn]
      simp

theorem natToString_eq_expansion (v : Nat) : natToString v = decimalExpansion (v : Int) := by
  unfold natToString decimalExpansion
  have hneg : ¬ ((v : Int) < 0) := by omega
  rcases Nat.eq_zero_or_pos v with h0 | hpos
  · subst h0
    rfl
  · have hne : ¬ ((v : Int) = 0) := by omega
    simp only [hneg, if_false, hne, List.nil_append, Int.natAbs_ofNat]
    rw [natDigits_eq_digits v hpos]

theorem neg_natToString_eq_expansion (v : Nat) (hpos : 0 < v) :
    "-" ++ natToString v = decimalExpansion (-(v : Int)) := by
  have hneg : (-(v : Int)) < 0 := by omega
  have hne : ¬ (-(v : Int) = 0) := by omega
  have hd : "-" ++ natToString v = String.mk ('-' :: natDigits v) := rfl
  rw [hd]
  unfold decimalExpansion
  simp only [hneg, if_true, hne, if_false, Int.natAbs_neg, Int.natAbs_ofNat,
    List.singleton_append]
  rw [natDigits_eq_digits v hpos]

/-- The decimal expansion on a negative number, zero and a number with inner
and trailing zeros. -/
theorem decimalExpansion_known_outputs :
    decimalExpansion (-45) = "-45" ∧ decimalExpansion 0 = "0" ∧
    decimalExpansion 10200 = "10200" := by
  refine ⟨?_, rfl, ?_⟩
  · rw [show (-45 : Int) = -((45 : Nat) : Int) from rfl, ← neg_natToString_eq_expansion 45 (by decide)]
    decide
  · rw [show (10200 : Int) = ((10200 : Nat) : Int) from rfl, ← natToString_eq_expansion]
    decide

theorem toFsValue_number_int (n : Int) :
    toFsValue (.number (.finite (n : ℚ))) = .ok (.integerValue (intNumberToString n)) := by
  simp [toFsValue, JsNumber.asInteger]

/-- C1 (amended): for every integer `n` that a Number holds exactly and whose
magnitude is below `10 ^ 21`, `toFsValue(n)` is `{ integerValue: s }` where `s`
is the decimal expansion (optional leading `-`, no leading zero) of an integer
`m` that denotes, as a Number, exactly `n`; `m` is `n` itself, so `s` is the
exact decimal expansion of `n`, when `|n| < 2 ^ 53`. The negative zero gives
`{ integerValue: "0" }`, and every Number that is not an integer gives
`{ doubleValue: v }` unchanged. -/
theorem toFsValue_integer_decimal (n : Int) (hd : isDoubleInt n = true)
    (hlt : n.natAbs < 10 ^ 21) :
    (∃ s m, toFsValue (.number (.finite (n : ℚ))) = .ok (.integerValue s) ∧
      s = decimalExpansion m ∧
      isDecimalString s = true ∧ parseDecimal s = some m ∧ numberOfInt m = some n ∧
      (n.natAbs < 2 ^ 53 → m = n ∧ s = decimalExpansion n)) ∧
    toFsValue (.number .negZero) = .ok (.integerValue "0") ∧
    (∀ x : JsNumber, x.isInteger = false →
      toFsValue (.number x) = .ok (.doubleValue x)) := by
  refine ⟨?_, rfl, ?_⟩
  · have hx : roundToDouble n.natAbs = some n.natAbs := by
      simpa [isDoubleInt, isDoubleNat] using hd
    have hs := shortestDecimal_sound n.natAbs hx
    have hstr := natNumberToString_of_lt n.natAbs hx hlt
    have hall := natDigits_all_isDigit (shortestDecimal n.natAbs)
    have hne := natDigits_ne_nil (shortestDecimal n.natAbs)
    have hpn := parseNat_natDigits (shortestDecimal n.natAbs)
    by_cases hneg : n < 0
    · have hab : (n.natAbs : Int) = -n := Int.ofNat_natAbs_of_nonpos (by omega)
      have hpos : 0 < shortestDecimal n.natAbs := by
        rcases Nat.eq_zero_or_pos (shortestDecimal n.natAbs) with h0 | h0
        · rw [h0] at hs
          have : roundToDouble 0 = some 0 := by decide
          rw [this] at hs
          have := Option.some.inj hs
          omega
        · exact h0
      have hexp : intNumberToString n =
          decimalExpansion (-(shortestDecimal n.natAbs : Int)) := by
        simp only [intNumberToString, hneg, if_true, hstr]
        exact neg_natToString_eq_expansion _ hpos
      refine ⟨intNumberToString n, -(shortestDecimal n.natAbs : Int), toFsValue_number_int n,
        hexp, ?_, ?_, ?_, ?_⟩
      · simp only [intNumberToString, hneg, if_true, hstr, natToString]
        exact isDecimalString_neg_digits _ hne hall
      · simp only [intNumberToString, hneg, if_true, hstr, natToString]
        rw [parseDecimal_neg_digits _ hne hall, hpn]
      · have hm : (-(shortestDecimal n.natAbs : Int)) < 0 := by omega
        simp only [numberOfInt, Int.natAbs_neg, Int.natAbs_ofNat, hs, hm, if_true]
        congr 1
        simp only [Int.ofNat_eq_coe]
        omega
      · intro hsafe
        have hmn : -(shortestDecimal n.natAbs : Int) = n := by
          rw [shortestDecimal_of_lt _ hsafe]
          omega
        exact ⟨hmn, by rw [hexp, hmn]⟩
    · have hab : (n.natAbs : Int) = n := Int.natAbs_of_nonneg (by omega)
      have hexp : intNumberToString n =
          decimalExpansion ((shortestDecimal n.natAbs : Nat) : Int) := by
        simp only [intNumberToString, hneg, if_false, hstr]
        exact natToString_eq_expansion _
      refine ⟨intNumberToString n, (shortestDecimal n.natAbs : Int), toFsValue_number_int n,
        hexp, ?_, ?_, ?_, ?_⟩
      · simp only [intNumberToString, hneg, if_false, hstr, natToString]
        exact isDecimalString_digits _ hne hall
      · simp only [intNumberToString, hneg, if_false, hstr, natToString]
        rw [parseDecimal_digits _ hne hall, hpn]
      · have hm : ¬ ((shortestDecimal n.natAbs : Int)) < 0 := by omega
        simp only [numberOfInt, Int.natAbs_ofNat, hs, hm, if_false]
        congr 1
      · intro hsafe
        have hmn : ((shortestDecimal n.natAbs : Nat) : Int) = n := by
          rw [shortestDecimal_of_lt _ hsafe]
          omega
        exact ⟨hmn, by rw [hexp, hmn]⟩
  · intro x hx
    have hnone : x.asInteger = none := by
      simpa [JsNumber.isInteger] using hx
    simp [toFsValue, hnone]

/-- Witness for C1 (amended) at `n = 2 ^ 60`. -/
theorem toFsValue_integer_decimal_witness :
    (∃ s m, toFsValue (.number (.finite (((2 ^ 60 : Int)) : ℚ))) = .ok (.integerValue s) ∧
      s = decimalExpansion m ∧
      isDecimalString s = true ∧ parseDecimal s = some m ∧
      numberOfInt m = some (2 ^ 60 : Int) ∧
      ((2 ^ 60 : Int).natAbs < 2 ^ 53 → m = (2 ^ 60 : Int) ∧
        s = decimalExpansion (2 ^ 60 : Int))) ∧
    toFsValue (.number .negZero) = .ok (.integerValue "0") ∧
    (∀ x : JsNumber, x.isInteger = false →
      toFsValue (.number x) = .ok (.doubleValue x)) :=
  toFsValue_integer_decimal (2 ^ 60) (by decide!) (by decide!)

/-- C1 fails at `n = 10 ^ 21`, which a Number holds exactly: `toFsValue` gives
`{ integerValue: "1e+21" }`, and `"1e+21"` is not a decimal digit string. -/
theorem toFsValue_integer_exponent_form :
    isDoubleInt (10 ^ 21) = true ∧
    toFsValue (.number (.finite (((10 ^ 21 : Int)) : ℚ))) = .ok (.integerValue "1e+21") ∧
    isDecimalString "1e+21" = false ∧ parseDecimal "1e+21" = none ∧
    ¬ ∃ s, toFsValue (.number (.finite (((10 ^ 21 : Int)) : ℚ))) = .ok (.integerValue s) ∧
      isDecimalString s = true := by
  have h : intNumberToString (10 ^ 21) = "1e+21" := by decide!
  have h1 : toFsValue (.number (.finite (((10 ^ 21 : Int)) : ℚ))) =
      .ok (.integerValue "1e+21") := by
    rw [toFsValue_number_int, h]
  refine ⟨by decide!, h1, by decide, by decide, ?_⟩
  rintro ⟨s, hs, hdec⟩
  rw [h1] at hs
  simp only [Except.ok.injEq, WireValue.integerValue.injEq] at hs
  subst hs
  exact absurd hdec (by decide)

/-! ## Structure of the codec on arrays and records -/

/-- The call `v.map(toFsValue)` returns `W` exactly when `W` is the
element-wise encoding of `S`, in order. -/
theorem mapToFsValue_ok_iff_forall₂ (S : List JsValue) (W : List WireValue) :
    mapToFsValue S = .ok W ↔ List.Forall₂ (fun v w => toFsValue v = .ok w) S W := by
  induction S generalizing W with
  | nil =>
    constructor
    · intro h
      simp only [mapToFsValue, Except.ok.injEq] at h
      subst h
      exact List.Forall₂.nil
    · intro h
      cases h
      rfl
  | cons v vs ih =>
    constructor
    · intro h
      unfold mapToFsValue at h
      cases h1 : toFsValue v with
      | error err => rw [h1] at h; cases h
      | ok w =>
        cases h2 : mapToFsValue vs with
        | error err => rw [h1, h2] at h; cases h
        | ok ws =>
          rw [h1, h2] at h
          simp only [Except.ok.injEq] at h
          subst h
          exact List.Forall₂.cons h1 ((ih ws).mp h2)
    · intro h
      cases h with
      | cons h1 hrest =>
        unfold mapToFsValue
        rw [h1, (ih _).mpr hrest]

/-- The mapped entries of a record are `F` exactly when `F` keeps each key,
in order, with the encoding of its value. -/
theorem entriesToFsValue_ok_iff_forall₂ (R : List (String × JsValue))
    (F : List (String × WireValue)) :
    entriesToFsValue R = .ok F ↔
      List.Forall₂ (fun e f => f.1 = e.1 ∧ toFsValue e.2 = .ok f.2) R F := by
  induction R generalizing F with
  | nil =>
    constructor
    · intro h
      simp only [entriesToFsValue, Except.ok.injEq] at h
      subst h
      exact List.Forall₂.nil
    · intro h
      cases h
      rfl
  | cons e rest ih =>
    obtain ⟨k, v⟩ := e
    constructor
    · intro h
      unfold entriesToFsValue at h
      cases h1 : toFsValue v with
      | error err => rw [h1] at h; cases h
      | ok w =>
        cases h2 : entriesToFsValue rest with
        | error err => rw [h1, h2] at h; cases h
        | ok ws =>
          rw [h1, h2] at h
          simp only [Except.ok.injEq] at h
          subst h
          exact List.Forall₂.cons ⟨rfl, h1⟩ ((ih ws).mp h2)
    · intro h
      cases h with
      | @cons _ f _ F1 h1 hrest =>
        obtain ⟨k2, w⟩ := f
        simp only at h1
        obtain ⟨hk, hw⟩ := h1
        subst hk
        unfold entriesToFsValue
        rw [hw, (ih _).mpr hrest]

theorem forall₂_of_all_ok (S : List JsValue) (h : ∀ v ∈ S, ∃ w, toFsValue v = .ok w) :
    ∃ W, List.Forall₂ (fun v w => toFsValue v = .ok w) S W := by
  induction S with
  | nil => exact ⟨[], List.Forall₂.nil⟩
  | cons v vs ih =>
    obtain ⟨w, hw⟩ := h v (List.mem_cons_self _ _)
    obtain ⟨W, hall⟩ := ih (fun u hu => h u (List.mem_cons_of_mem _ hu))
    exact ⟨w :: W, List.Forall₂.cons hw hall⟩

theorem entries_forall₂_of_all_ok (R : List (String × JsValue))
    (h : ∀ e ∈ R, ∃ w, toFsValue e.2 = .ok w) :
    ∃ F : List (String × WireValue),
      List.Forall₂ (fun e f => f.1 = e.1 ∧ toFsValue e.2 = .ok f.2) R F := by
  induction R with
  | nil => exact ⟨[], List.Forall₂.nil⟩
  | cons e rest ih =>
    obtain ⟨w, hw⟩ := h e (List.mem_cons_self _ _)
    obtain ⟨F, hall⟩ := ih (fun u hu => h u (List.mem_cons_of_mem _ hu))
    exact ⟨(e.1, w) :: F, List.Forall₂.cons ⟨rfl, hw⟩ hall⟩

theorem forall₂_keys_eq {R : List (String × JsValue)} {F : List (String × WireValue)}
    (h : List.Forall₂ (fun e f => f.1 = e.1 ∧ toFsValue e.2 = .ok f.2) R F) :
    F.map Prod.fst = R.map Prod.fst := by
  induction h with
  | nil => rfl
  | cons hab _ ih => simp [hab.1, ih]

theorem forall₂_lookup {R : List (String × JsValue)} {F : List (String × WireValue)}
    (h : List.Forall₂ (fun e f => f.1 = e.1 ∧ toFsValue e.2 = .ok f.2) R F)
    (k : String) (v : JsValue) (hv : R.lookup k = some v) :
    ∃ w, toFsValue v = .ok w ∧ F.lookup k = some w := by
  induction h with
  | nil => simp at hv
  | @cons e f R1 F1 hab _ ih =>
    obtain ⟨k1, v1⟩ := e
    obtain ⟨k2, w2⟩ := f
    simp only at hab
    obtain ⟨hk, hw⟩ := hab
    subst hk
    by_cases hkk : k = k2
    · subst hkk
      simp only [List.lookup_cons, beq_self_eq_true] at hv ⊢
      cases hv
      exact ⟨w2, hw, rfl⟩
    · have hb : (k == k2) = false := by simpa using hkk
      simp only [List.lookup_cons, hb] at hv ⊢
      exact ih hv

theorem toFsValue_array_eq (S : List JsValue) (e : WireValue) :
    toFsValue (.array S) = .ok e ↔ ∃ W, mapToFsValue S = .ok W ∧ e = .arrayValue W := by
  constructor
  · intro h
    simp only [toFsValue] at h
    cases h1 : mapToFsValue S with
    | error err => rw [h1] at h; cases h
    | ok W =>
      rw [h1] at h
      simp only [Except.ok.injEq] at h
      exact ⟨W, rfl, h.symm⟩
  · rintro ⟨W, hW, rfl⟩
    simp [toFsValue, hW]

/-- C4: for every array `S`, what `toFsValue(S)` returns is
`{ arrayValue: { values: W } }` where `W` is exactly the element-wise encoding
of `S`: `W` has the length of `S` and `W[i] = toFsValue(S[i])` at every index
`i`, order kept, each element encoded recursively; it returns whenever every
element has an encoding. -/
theorem toFsValue_array_elementwise (S : List JsValue) :
    (∀ e, toFsValue (.array S) = .ok e → ∃ W, e = .arrayValue W) ∧
    (∀ W, toFsValue (.array S) = .ok (.arrayValue W) ↔
      List.Forall₂ (fun v w => toFsValue v = .ok w) S W) ∧
    (∀ W, toFsValue (.array S) = .ok (.arrayValue W) →
      W.length = S.length ∧
      ∀ (i : Nat) (hS : i < S.length) (hW : i < W.length),
        toFsValue (S.get ⟨i, hS⟩) = .ok (W.get ⟨i, hW⟩)) ∧
    ((∀ v ∈ S, ∃ w, toFsValue v = .ok w) →
      ∃ W, toFsValue (.array S) = .ok (.arrayValue W) ∧ W.length = S.length) := by
  have hiff : ∀ W, toFsValue (.array S) = .ok (.arrayValue W) ↔
      List.Forall₂ (fun v w => toFsValue v = .ok w) S W := by
    intro W
    rw [toFsValue_array_eq, ← mapToFsValue_ok_iff_forall₂]
    constructor
    · rintro ⟨W1, hW1, heq⟩
      simp only [WireValue.arrayValue.injEq] at heq
      rw [heq]; exact hW1
    · intro h; exact ⟨W, h, rfl⟩
  refine ⟨?_, hiff, ?_, ?_⟩
  · intro e he
    obtain ⟨W, _, rfl⟩ := (toFsValue_array_eq S e).mp he
    exact ⟨W, rfl⟩
  · intro W hW
    have hall := (hiff W).mp hW
    exact ⟨hall.length_eq.symm, fun i hS hW2 => List.Forall₂.get hall hS hW2⟩
  · intro h
    obtain ⟨W, hall⟩ := forall₂_of_all_ok S h
    exact ⟨W, (hiff W).mpr hall, hall.length_eq.symm⟩

/-- Witness for C4 on a two-element array. -/
theorem toFsValue_array_elementwise_witness :
    toFsValue (.array [.string "a", .bool true]) =
        .ok (.arrayValue [.stringValue "a", .booleanValue true]) ∧
      [WireValue.stringValue "a", WireValue.booleanValue true].length =
        [JsValue.string "a", JsValue.bool true].length :=
  ⟨rfl, ((toFsValue_array_elementwise [.string "a", .bool true]).2.2.1
    [.stringValue "a", .booleanValue true] rfl).1⟩

theorem toFsFields_eq (R : List (String × JsValue)) (F : List (String × WireValue)) :
    toFsFields R = .ok { fields := F } ↔
      ∃ F1, entriesToFsValue R = .ok F1 ∧ F = fromEntries F1 := by
  unfold toFsFields
  cases h : entriesToFsValue R with
  | error err => simp
  | ok F1 =>
    simp only [Except.ok.injEq, WireDocument.mk.injEq, exists_eq_left']
    exact eq_comm

/-- C5: for every record `R` (its keys pairwise distinct), the fields mapping
`F` of `toFsFields(R)`, which is also that of the `mapValue` of `toFsValue(R)`,
keeps exactly the keys of `R`, unrenamed and in the same order, with
`toFsValue(R[k])` at each key `k`; it exists whenever every value of `R` has an
encoding, and the empty record gives the empty mapping. -/
theorem toFsFields_keys_and_values (R : List (String × JsValue))
    (hkeys : (R.map Prod.fst).Nodup) :
    (∀ F, toFsFields R = .ok { fields := F } ↔
      List.Forall₂ (fun e f => f.1 = e.1 ∧ toFsValue e.2 = .ok f.2) R F) ∧
    (∀ F, toFsValue (.object R) = .ok (.mapValue F) ↔ toFsFields R = .ok { fields := F }) ∧
    (∀ F, toFsFields R = .ok { fields := F } →
      F.map Prod.fst = R.map Prod.fst ∧
      (∀ k, k ∈ F.map Prod.fst ↔ k ∈ R.map Prod.fst) ∧
      (∀ k v, R.lookup k = some v → ∃ w, toFsValue v = .ok w ∧ F.lookup k = some w)) ∧
    ((∀ e ∈ R, ∃ w, toFsValue e.2 = .ok w) → ∃ F, toFsFields R = .ok { fields := F }) ∧
    (toFsFields [] = .ok { fields := [] } ∧ toFsValue (.object []) = .ok (.mapValue [])) := by
  have hiff : ∀ F, toFsFields R = .ok { fields := F } ↔
      List.Forall₂ (fun e f => f.1 = e.1 ∧ toFsValue e.2 = .ok f.2) R F := by
    intro F
    rw [toFsFields_eq]
    constructor
    · rintro ⟨F1, hF1, heq⟩
      have hall := (entriesToFsValue_ok_iff_forall₂ R F1).mp hF1
      have hk := forall₂_keys_eq hall
      rw [heq, fromEntries_of_nodup F1 (by rw [hk]; exact hkeys)]
      exact hall
    · intro hall
      have hk := forall₂_keys_eq hall
      exact ⟨F, (entriesToFsValue_ok_iff_forall₂ R F).mpr hall,
        (fromEntries_of_nodup F (by rw [hk]; exact hkeys)).symm⟩
  refine ⟨hiff, ?_, ?_, ?_, rfl, rfl⟩
  · intro F
    rw [toFsFields_eq]
    constructor
    · intro h
      simp only [toFsValue] at h
      cases h1 : entriesToFsValue R with
      | error err => rw [h1] at h; cases h
      | ok F1 =>
        rw [h1] at h
        simp only [Except.ok.injEq, WireValue.mapValue.injEq] at h
        exact ⟨F1, rfl, h.symm⟩
    · rintro ⟨F1, hF1, rfl⟩
      simp [toFsValue, hF1]
  · intro F hF
    have hall := (hiff F).mp hF
    have hk := forall₂_keys_eq hall
    exact ⟨hk, fun k => by rw [hk], fun k v hv => forall₂_lookup hall k v hv⟩
  · intro h
    obtain ⟨F, hall⟩ := entries_forall₂_of_all_ok R h
    exact ⟨F, (hiff F).mpr hall⟩

/-- Witness for C5 on a two-field record. -/
theorem toFsFields_keys_and_values_witness :
    toFsFields [("a", .null), ("b", .string "x")] =
      .ok { fields := [("a", .nullValue), ("b", .stringValue "x")] } ∧
    [("a", WireValue.nullValue), ("b", WireValue.stringValue "x")].map Prod.fst =
      [("a", JsValue.null), ("b", JsValue.string "x")].map Prod.fst :=
  ⟨rfl, ((toFsFields_keys_and_values [("a", .null), ("b", .string "x")] (by decide)).2.2.1
    [("a", .nullValue), ("b", .stringValue "x")] rfl).1⟩

/-- C7: for the record `{title: "Demo", duration: 45, participants: ["a@x.com",
"b@x.com"], status: "scheduled"}` the body `fsCreateMeeting` hands to the POST
request is `toFsFields(record)` and equals the literal wire document of the
scenario, whatever the id and the environment; and every string `v` encodes to
`{ stringValue: v }` verbatim. -/
theorem fsCreateMeeting_demo_body :
    toFsFields demoRecord = .ok demoDocument ∧
    (∀ (env : Env) (meetingId : Option String),
      ∃ url, fsCreateMeeting env meetingId demoRecord =
        .ok { method := "POST", url := url, body := some demoDocument,
              headers := headersJSON env }) ∧
    (∀ v : String, toFsValue (.string v) = .ok (.stringValue v)) := by
  have h : toFsFields demoRecord = .ok demoDocument := rfl
  refine ⟨h, ?_, fun v => rfl⟩
  intro env meetingId
  simp only [fsCreateMeeting, h]
  exact ⟨_, rfl⟩

/-- C8: with `replaceAll: false` and a non-empty list of field paths,
`fsPatchMeeting` builds a PATCH request whose URL is
`FS_BASE + "/" + encodeURIComponent(id) + "?"` followed by one parameter
`updateMask.fieldPaths=` + `encodeURIComponent(f)` per field path, in order,
joined by `&`, and whose body is `toFsFields(data)`; for data
`{status: "rescheduled"}` and fields `["status"]` the query is the single
parameter `updateMask.fieldPaths=status` and the body has the status field only. -/
theorem fsPatchMeeting_partial_request (env : Env) (meetingId : String)
    (data : List (String × JsValue)) (doc : WireDocument) (fields : List String)
    (hdoc : toFsFields data = .ok doc) (hne : fields ≠ []) :
    fsPatchMeeting env meetingId data (some { replaceAll := some false, fields := some fields }) =
      .ok { method := "PATCH",
            url := FS_BASE env ++ "/" ++ encodeURIComponent meetingId ++ "?" ++
              "&".intercalate
                (fields.map fun f => "updateMask.fieldPaths=" ++ encodeURIComponent f),
            body := some doc,
            headers := headersJSON env } ∧
    (fields.map fun f => "updateMask.fieldPaths=" ++ encodeURIComponent f).length
      = fields.length ∧
    fsPatchMeeting env meetingId [("status", .string "rescheduled")]
        (some { replaceAll := some false, fields := some ["status"] }) =
      .ok { method := "PATCH",
            url := FS_BASE env ++ "/" ++ encodeURIComponent meetingId ++
              "?updateMask.fieldPaths=status",
            body := some { fields := [("status", .stringValue "rescheduled")] },
            headers := headersJSON env } := by
  refine ⟨?_, by simp, ?_⟩
  · have hlen : fields.length ≠ 0 := by
      intro h0; exact hne (List.length_eq_zero.mp h0)
    simp [fsPatchMeeting, hdoc, hlen, updateMasks, joinWith_eq_intercalate]
  · have h1 : toFsFields [("status", JsValue.string "rescheduled")] =
        .ok { fields := [("status", .stringValue "rescheduled")] } := rfl
    have h2 : encodeURIComponent "status" = "status" := by decide
    simp [fsPatchMeeting, h1, updateMasks, joinWith, h2, String.append_assoc]

/-- Witness for C8: the partial update of the demo script. -/
theorem fsPatchMeeting_partial_request_witness :
    fsPatchMeeting ⟨none, none⟩ "mtg_1" [("status", .string "rescheduled")]
        (some { replaceAll := some false, fields := some ["status", "title"] }) =
      .ok { method := "PATCH",
            url := FS_BASE ⟨none, none⟩ ++ "/" ++ encodeURIComponent "mtg_1" ++ "?" ++
              "&".intercalate
                (["status", "title"].map fun f =>
                  "updateMask.fieldPaths=" ++ encodeURIComponent f),
            body := some { fields := [("status", .stringValue "rescheduled")] },
            headers := headersJSON ⟨none, none⟩ } ∧
    (["status", "title"].map fun f => "updateMask.fieldPaths=" ++ encodeURIComponent f).length
      = ["status", "title"].length ∧
    fsPatchMeeting ⟨none, none⟩ "mtg_1" [("status", .string "rescheduled")]
        (some { replaceAll := some false, fields := some ["status"] }) =
      .ok { method := "PATCH",
            url := FS_BASE ⟨none, none⟩ ++ "/" ++ encodeURIComponent "mtg_1" ++
              "?updateMask.fieldPaths=status",
            body := some { fields := [("status", .stringValue "rescheduled")] },
            headers := headersJSON ⟨none, none⟩ } :=
  fsPatchMeeting_partial_request ⟨none, none⟩ "mtg_1" [("status", .string "rescheduled")]
    { fields := [("status", .stringValue "rescheduled")] } ["status", "title"] rfl (by decide)

theorem string_append_ne_self (a b : String) (hb : b ≠ "") : a ++ b ≠ a := by
  intro h
  have hd : (a ++ b).data = a.data := by rw [h]
  rw [String.data_append] at hd
  have : b.data = [] := by simpa using hd
  apply hb
  cases b
  simp only at this
  subst this
  rfl

/-- C10: the URL built by `fsPatchMeeting` differs from
`FS_BASE + "/" + encodeURIComponent(id)` exactly when `replaceAll` is false and
the fields list is non-empty, and it is then that URL, a `?` and the update-mask
parameters; in every other case (with `replaceAll` true or left to its default
any fields are ignored, and so is an empty or absent fields list) the request
is the full-replace request for the same id and data. -/
theorem fsPatchMeeting_mask_iff (env : Env) (meetingId : String)
    (data : List (String × JsValue)) (doc : WireDocument)
    (replaceAll : Option Bool) (fields : Option (List String))
    (hdoc : toFsFields data = .ok doc) :
    ∃ call, fsPatchMeeting env meetingId data (some { replaceAll := replaceAll, fields := fields })
        = .ok call ∧
      (call.url ≠ FS_BASE env ++ "/" ++ encodeURIComponent meetingId ↔
        (replaceAll = some false ∧ fields.getD [] ≠ [])) ∧
      ((replaceAll = some false ∧ fields.getD [] ≠ []) →
        call.url = FS_BASE env ++ "/" ++ encodeURIComponent meetingId ++ "?" ++
          "&".intercalate
            ((fields.getD []).map fun f => "updateMask.fieldPaths=" ++ encodeURIComponent f)) ∧
      (¬ (replaceAll = some false ∧ fields.getD [] ≠ []) →
        call.url = FS_BASE env ++ "/" ++ encodeURIComponent meetingId ∧
        fsPatchMeeting env meetingId data none = .ok call ∧
        fsPatchMeeting env meetingId data (some { replaceAll := some true, fields := none })
          = .ok call) := by
  have hfull : fsPatchMeeting env meetingId data none =
      .ok { method := "PATCH", url := FS_BASE env ++ "/" ++ encodeURIComponent meetingId,
            body := some doc, headers := headersJSON env } := by
    simp [fsPatchMeeting, hdoc]
  have hfull2 : fsPatchMeeting env meetingId data (some { replaceAll := some true, fields := none })
      = .ok { method := "PATCH", url := FS_BASE env ++ "/" ++ encodeURIComponent meetingId,
              body := some doc, headers := headersJSON env } := by
    simp [fsPatchMeeting, hdoc]
  by_cases hc : replaceAll = some false ∧ fields.getD [] ≠ []
  · obtain ⟨hr, hf⟩ := hc
    have hlen : (fields.getD []).length ≠ 0 := by
      intro h0; exact hf (List.length_eq_zero.mp h0)
    refine ⟨{ method := "PATCH",
              url := FS_BASE env ++ "/" ++ encodeURIComponent meetingId ++ "?" ++
                "&".intercalate ((fields.getD []).map fun f =>
                  "updateMask.fieldPaths=" ++ encodeURIComponent f),
              body := some doc, headers := headersJSON env }, ?_, ?_, ?_, ?_⟩
    · subst hr
      simp [fsPatchMeeting, hdoc, hlen, updateMasks, joinWith_eq_intercalate]
    · simp only [hr, hf, ne_eq, not_false_eq_true, and_self, iff_true]
      rw [String.append_assoc _ "?"]
      exact string_append_ne_self _ _ (by
        intro h
        have := congrArg String.length h
        simp only [String.length_append] at this
        have h1 : "?".length = 1 := by decide
        have h0 : "".length = 0 := by decide
        omega)
    · intro _; rfl
    · intro hn; exact absurd ⟨hr, hf⟩ hn
  · refine ⟨{ method := "PATCH", url := FS_BASE env ++ "/" ++ encodeURIComponent meetingId,
              body := some doc, headers := headersJSON env }, ?_, ?_, ?_, ?_⟩
    · have hcond : (!(replaceAll.getD true) && (fields.getD []).length != 0) = false := by
        rcases replaceAll with _ | _ | _
        · rfl
        · have : fields.getD [] = [] := by
            by_contra hf; exact hc ⟨rfl, hf⟩
          simp [this]
        · rfl
      simp only [fsPatchMeeting, Option.getD_some, hdoc, hcond]
      rfl
    · simp [hc]
    · intro h; exact absurd h hc
    · intro _; exact ⟨rfl, hfull, hfull2⟩

/-- Witness for C10: `replaceAll: false` with an empty fields list. -/
theorem fsPatchMeeting_mask_iff_witness :
    ∃ call, fsPatchMeeting ⟨none, none⟩ "m1" [("status", .string "done")]
        (some { replaceAll := some false, fields := some [] }) = .ok call ∧
      (call.url ≠ FS_BASE ⟨none, none⟩ ++ "/" ++ encodeURIComponent "m1" ↔
        (some false = some false ∧ (some ([] : List String)).getD [] ≠ [])) ∧
      ((some false = some false ∧ (some ([] : List String)).getD [] ≠ []) →
        call.url = FS_BASE ⟨none, none⟩ ++ "/" ++ encodeURIComponent "m1" ++ "?" ++
          "&".intercalate
            (((some ([] : List String)).getD []).map fun f =>
              "updateMask.fieldPaths=" ++ encodeURIComponent f)) ∧
      (¬ (some false = some false ∧ (some ([] : List String)).getD [] ≠ []) →
        call.url = FS_BASE ⟨none, none⟩ ++ "/" ++ encodeURIComponent "m1" ∧
        fsPatchMeeting ⟨none, none⟩ "m1" [("status", .string "done")] none = .ok call ∧
        fsPatchMeeting ⟨none, none⟩ "m1" [("status", .string "done")]
          (some { replaceAll := some true, fields := none }) = .ok call) :=
  fsPatchMeeting_mask_iff ⟨none, none⟩ "m1" [("status", .string "done")]
    { fields := [("status", .stringValue "done")] } (some false) (some []) rfl

/-- C9 (amended): `http` fails exactly when the response is non-success or
when it is a success whose content-type contains `application/json` and whose
body does not parse as JSON. On a non-success response the error message is
`method url -> status statusText` followed by a line break and the body text
(the empty string if the body cannot be read), the status in plain decimal.
On a success whose content-type contains `application/json` it returns the
parsed JSON body, or fails with the very error of `res.json()` when the body
does not parse; on any other success it returns `undefined`. -/
theorem http_outcome {J : Type} (method url : String) (res : Response J) :
    ((∃ e, http method url res = .error e) ↔
      (res.ok = false ∨
        (includes (res.contentType.getD "") "application/json" = true ∧
          ∃ e, res.json = .error e))) ∧
    (res.ok = false →
      http method url res = .error (.error (method ++ " " ++ url ++ " -> " ++
        natNumberToString res.status ++ " " ++ res.statusText ++ "\n" ++
        (match res.text with
          | .ok t => t
          | .error _ => "")))) ∧
    (res.status < 2 ^ 53 → natNumberToString res.status = natToString res.status) ∧
    (res.ok = true → includes (res.contentType.getD "") "application/json" = true →
      ∀ j, res.json = .ok j → http method url res = .ok (some j)) ∧
    (res.ok = true → includes (res.contentType.getD "") "application/json" = true →
      ∀ e, res.json = .error e → http method url res = .error e) ∧
    (res.ok = true → includes (res.contentType.getD "") "application/json" = false →
      http method url res = .ok none) := by
  refine ⟨?_, ?_, natNumberToString_of_safe res.status, ?_, ?_, ?_⟩
  · cases hok : res.ok with
    | false => simp [http, hok]
    | true =>
      cases hct : includes (res.contentType.getD "") "application/json" with
      | false => simp [http, hok, hct]
      | true =>
        cases hj : res.json with
        | ok j => simp [http, hok, hct, hj]
        | error e => simp [http, hok, hct, hj]
  · intro hok
    simp [http, hok]
  · intro hok hct j hj
    simp [http, hok, hct, hj]
  · intro hok hct e he
    simp [http, hok, hct, he]
  · intro hok hct
    simp [http, hok, hct]

/-- Witness for C9 (amended): a 404 response to `GET`. -/
theorem http_outcome_witness :
    http "GET" "https://h/meetings/missing"
      ({ ok := false, status := 404, statusText := "Not Found", contentType := none,
         text := .error (.error "stream"), json := .ok 0 } : Response Nat) =
      .error (.error "GET https://h/meetings/missing -> 404 Not Found\n") :=
  ((http_outcome "GET" "https://h/meetings/missing"
      ({ ok := false, status := 404, statusText := "Not Found", contentType := none,
         text := .error (.error "stream"), json := .ok 0 } : Response Nat)).2.1 rfl).trans
    (by decide)

/-- C9 fails on a success response whose JSON body does not parse: `res.ok` is
true and `http` still fails, with the error of `res.json()`. -/
theorem http_fails_on_success_response :
    http "DELETE" "u"
      ({ ok := true, status := 200, statusText := "OK",
         contentType := some "application/json", text := .ok "",
         json := .error (.syntaxError "Unexpected end of JSON input") } : Response Nat)
      = .error (.syntaxError "Unexpected end of JSON input") ∧
    ¬ ∀ (method url : String) (res : Response Nat),
      ((∃ e, http method url res = .error e) ↔ res.ok = false) := by
  refine ⟨rfl, ?_⟩
  intro h
  have hfail : ∃ e, http "DELETE" "u"
      ({ ok := true, status := 200, statusText := "OK",
         contentType := some "application/json", text := .ok "",
         json := .error (.syntaxError "Unexpected end of JSON input") } : Response Nat)
      = .error e := ⟨_, rfl⟩
  have := (h _ _ _).mp hfail
  exact absurd this (by decide)

/-! ## Timestamps -/

theorem padDigits_all_isDigit (w n : Nat) : ∀ c ∈ padDigits w n, c.isDigit = true := by
  intro c hc
  rcases List.mem_append.mp hc with h | h
  · rw [(List.mem_replicate.mp h).2]; rfl
  · exact natDigits_all_isDigit n c h

theorem padDigits_length (w n : Nat) (hw : 1 ≤ w) (h : n < 10 ^ w) :
    (padDigits w n).length = w := by
  have := numDigits_le w n hw h
  simp only [numDigits] at this
  simp only [padDigits, List.length_append, List.length_replicate]
  omega

theorem isoYear_no_dot (y : Int) : ∀ c ∈ isoYear y, c ≠ '.' := by
  intro c hc hdot
  subst hdot
  unfold isoYear at hc
  split at hc
  · exact absurd (padDigits_all_isDigit _ _ _ hc) (by decide)
  · rcases List.mem_cons.mp hc with h | h
    · split at h
      · exact absurd h (by decide)
      · exact absurd h (by decide)
    · exact absurd (padDigits_all_isDigit _ _ _ h) (by decide)

theorem isoSeconds_no_dot (t : Int) : ∀ c ∈ isoSeconds t, c ≠ '.' := by
  intro c hc hdot
  subst hdot
  have hp : ∀ w n, '.' ∉ padDigits w n := fun w n h =>
    absurd (padDigits_all_isDigit w n _ h) (by decide)
  simp only [isoSeconds, List.mem_append, List.mem_cons] at hc
  rcases hc with ((((h | h | h) | h | h) | h | h) | h | h) | h | h
  all_goals first
    | exact isoYear_no_dot _ _ h rfl
    | exact hp _ _ h
    | exact absurd h (by decide)

/-- The regular expression matches a final dot, three digits and `Z`. -/
theorem replaceMillis_fraction (pre : List Char) (a b c : Char)
    (ha : a.isDigit = true) (hb : b.isDigit = true) (hc : c.isDigit = true) :
    replaceMillis (String.mk (pre ++ '.' :: [a, b, c] ++ ['Z'])) = String.mk (pre ++ ['Z']) := by
  have hrev : (pre ++ '.' :: [a, b, c] ++ ['Z']).reverse = 'Z' :: c :: b :: a :: '.' :: pre.reverse := by
    simp
  unfold replaceMillis
  simp only [hrev, ha, hb, hc, Bool.and_self, if_true, List.reverse_reverse]

theorem list_length_three {α : Type} (l : List α) (h : l.length = 3) :
    ∃ a b c, l = [a, b, c] := by
  match l, h with
  | [a, b, c], _ => exact ⟨a, b, c, rfl⟩

/-- Every field of the seconds rendering is a function of the whole second. -/
theorem isoSeconds_same_second (t u : Int) (h : u / 1000 = t / 1000) :
    isoSeconds u = isoSeconds t := by
  have hday : Day u = Day t := by simp only [Day, msPerDay]; omega
  have hyear : YearFromTime u = YearFromTime t := by simp only [YearFromTime, hday]
  have hdwy : DayWithinYear u = DayWithinYear t := by simp only [DayWithinYear, hday, hyear]
  have hmon : MonthFromTime u = MonthFromTime t := by simp only [MonthFromTime, hdwy, hyear]
  have hdate : DateFromTime u = DateFromTime t := by simp only [DateFromTime, hdwy, hyear]
  have hh : HourFromTime u = HourFromTime t := by simp only [HourFromTime]; omega
  have hm : MinFromTime u = MinFromTime t := by simp only [MinFromTime]; omega
  have hs : SecFromTime u = SecFromTime t := by simp only [SecFromTime]; omega
  simp only [isoSeconds, hyear, hmon, hdate, hh, hm, hs]

theorem isoUtc_eq (t : Int) : isoUtc (some t) = .ok (String.mk (isoSeconds t ++ ['Z'])) := by
  have hms : (msFromTime t).toNat < 10 ^ 3 := by
    simp only [msFromTime]; omega
  obtain ⟨a, b, c, habc⟩ :=
    list_length_three _ (padDigits_length 3 (msFromTime t).toNat (by norm_num) hms)
  have hall := padDigits_all_isDigit 3 (msFromTime t).toNat
  rw [habc] at hall
  have hr := replaceMillis_fraction (isoSeconds t) a b c
    (hall a (by simp)) (hall b (by simp)) (hall c (by simp))
  simp only [isoUtc, toISOString, Except.map, habc]
  rw [← hr]

/-- C6: for every timestamp `t` (a time value in milliseconds),
`toFsValue(t)` is `{ timestampValue: s }` where `s` is the rendering
`YYYY-MM-DDTHH:mm:ss` of `toISOString` followed by `Z`, that is `toISOString`
without its dot and three fraction digits: `s` has no `.`, ends with `Z`,
and is the same for every timestamp within the same whole second. -/
theorem toFsValue_date_whole_seconds (t : Int) :
    ∃ s frac, toFsValue (.date (some t)) = .ok (.timestampValue s) ∧
      s.data = isoSeconds t ++ ['Z'] ∧
      toISOString (some t) = .ok (String.mk (isoSeconds t ++ '.' :: frac ++ ['Z'])) ∧
      frac.length = 3 ∧ (∀ c ∈ frac, c.isDigit = true) ∧
      '.' ∉ s.data ∧ s.data.getLast? = some 'Z' ∧
      ∀ u : Int, u / 1000 = t / 1000 →
        toFsValue (.date (some u)) = .ok (.timestampValue s) := by
  have hms : (msFromTime t).toNat < 10 ^ 3 := by
    simp only [msFromTime]; omega
  refine ⟨String.mk (isoSeconds t ++ ['Z']), padDigits 3 (msFromTime t).toNat, ?_, rfl, rfl,
    padDigits_length 3 _ (by norm_num) hms, padDigits_all_isDigit 3 _, ?_, ?_, ?_⟩
  · simp [toFsValue, isoUtc_eq]
  · intro hmem
    rcases List.mem_append.mp hmem with h | h
    · exact isoSeconds_no_dot t _ h rfl
    · exact absurd h (by decide)
  · simp
  · intro u hu
    simp [toFsValue, isoUtc_eq, isoSeconds_same_second t u hu]

/-! ## The seconds rendering determines the whole second -/

theorem yearSearch_spec (day : Int) (fuel : Nat) (y : Int)
    (hlo : DayFromYear y ≤ day) (hhi : day < DayFromYear (y + fuel)) :
    DayFromYear (yearSearch day fuel y) ≤ day ∧
      day < DayFromYear (yearSearch day fuel y + 1) := by
  induction fuel generalizing y with
  | zero =>
    simp only [Nat.cast_zero, add_zero] at hhi
    omega
  | succ fuel ih =>
    unfold yearSearch
    by_cases h : DayFromYear (y + 1) ≤ day
    · rw [if_pos h]
      apply ih (y + 1) h
      have : y + 1 + (fuel : Int) = y + ((fuel + 1 : Nat) : Int) := by push_cast; ring
      rw [this]; exact hhi
    · rw [if_neg h]
      exact ⟨hlo, by omega⟩

/-- The year found is the one that contains the day. -/
theorem yearFromDay_spec (day : Int) :
    DayFromYear (yearFromDay day) ≤ day ∧ day < DayFromYear (yearFromDay day + 1) := by
  unfold yearFromDay
  apply yearSearch_spec
  · unfold DayFromYear; omega
  · unfold DayFromYear; push_cast; omega

theorem dayWithinYear_bounds (t : Int) :
    0 ≤ DayWithinYear t ∧ DayWithinYear t < 365 + leapOfYear (YearFromTime t) ∧
      (leapOfYear (YearFromTime t) = 0 ∨ leapOfYear (YearFromTime t) = 1) := by
  have h := yearFromDay_spec (Day t)
  have hstep : DayFromYear (YearFromTime t + 1) - DayFromYear (YearFromTime t) = 365 ∨
      DayFromYear (YearFromTime t + 1) - DayFromYear (YearFromTime t) = 366 := by
    unfold DayFromYear; omega
  unfold DayWithinYear leapOfYear
  unfold YearFromTime at hstep ⊢
  split <;> omega

theorem monthAndStart_cases (d l : Int) :
    (d < 31 ∧ monthAndStart d l = (0, 0)) ∨
    ((¬ d < 31 ∧ d < 59 + l) ∧ monthAndStart d l = (1, 31)) ∨
    ((¬ d < 59 + l ∧ d < 90 + l) ∧ monthAndStart d l = (2, 59 + l)) ∨
    ((¬ d < 90 + l ∧ d < 120 + l) ∧ monthAndStart d l = (3, 90 + l)) ∨
    ((¬ d < 120 + l ∧ d < 151 + l) ∧ monthAndStart d l = (4, 120 + l)) ∨
    ((¬ d < 151 + l ∧ d < 181 + l) ∧ monthAndStart d l = (5, 151 + l)) ∨
    ((¬ d < 181 + l ∧ d < 212 + l) ∧ monthAndStart d l = (6, 181 + l)) ∨
    ((¬ d < 212 + l ∧ d < 243 + l) ∧ monthAndStart d l = (7, 212 + l)) ∨
    ((¬ d < 243 + l ∧ d < 273 + l) ∧ monthAndStart d l = (8, 243 + l)) ∨
    ((¬ d < 273 + l ∧ d < 304 + l) ∧ monthAndStart d l = (9, 273 + l)) ∨
    ((¬ d < 304 + l ∧ d < 334 + l) ∧ monthAndStart d l = (10, 304 + l)) ∨
    (¬ d < 334 + l ∧ monthAndStart d l = (11, 334 + l)) := by
  unfold monthAndStart
  by_cases h0 : d < 31
  · rw [if_pos h0]; left; exact ⟨h0, rfl⟩
  rw [if_neg h0]
  by_cases h1 : d < 59 + l
  · rw [if_pos h1]; right; left; exact ⟨⟨h0, h1⟩, rfl⟩
  rw [if_neg h1]
  by_cases h2 : d < 90 + l
  · rw [if_pos h2]; right; right; left; exact ⟨⟨h1, h2⟩, rfl⟩
  rw [if_neg h2]
  by_cases h3 : d < 120 + l
  · rw [if_pos h3]; right; right; right; left; exact ⟨⟨h2, h3⟩, rfl⟩
  rw [if_neg h3]
  by_cases h4 : d < 151 + l
  · rw [if_pos h4]; right; right; right; right; left; exact ⟨⟨h3, h4⟩, rfl⟩
  rw [if_neg h4]
  by_cases h5 : d < 181 + l
  · rw [if_pos h5]; right; right; right; right; right; left; exact ⟨⟨h4, h5⟩, rfl⟩
  rw [if_neg h5]
  by_cases h6 : d < 212 + l
  · rw [if_pos h6]; right; right; right; right; right; right; left; exact ⟨⟨h5, h6⟩, rfl⟩
  rw [if_neg h6]
  by_cases h7 : d < 243 + l
  · rw [if_pos h7]; right; right; right; right; right; right; right; left; exact ⟨⟨h6, h7⟩, rfl⟩
  rw [if_neg h7]
  by_cases h8 : d < 273 + l
  · rw [if_pos h8]; right; right; right; right; right; right; right; right; left; exact ⟨⟨h7, h8⟩, rfl⟩
  rw [if_neg h8]
  by_cases h9 : d < 304 + l
  · rw [if_pos h9]; right; right; right; right; right; right; right; right; right; left; exact ⟨⟨h8, h9⟩, rfl⟩
  rw [if_neg h9]
  by_cases h10 : d < 334 + l
  · rw [if_pos h10]; right; right; right; right; right; right; right; right; right; right; left; exact ⟨⟨h9, h10⟩, rfl⟩
  rw [if_neg h10]
  right; right; right; right; right; right; right; right; right; right; right; exact ⟨h10, rfl⟩

theorem monthAndStart_bounds (d l : Int) (hd0 : 0 ≤ d) (hd : d < 365 + l)
    (hl : l = 0 ∨ l = 1) :
    (monthAndStart d l).1 ≤ 11 ∧ 0 ≤ d - (monthAndStart d l).2 ∧
      d - (monthAndStart d l).2 ≤ 30 := by
  rcases monthAndStart_cases d l with h | h | h | h | h | h | h | h | h | h | h | h
  all_goals (rw [h.2]; refine ⟨?_, ?_, ?_⟩ <;> dsimp only <;> omega)

theorem monthAndStart_start (d e l : Int)
    (h : (monthAndStart d l).1 = (monthAndStart e l).1) :
    (monthAndStart d l).2 = (monthAndStart e l).2 := by
  rcases monthAndStart_cases d l with h1 | h1 | h1 | h1 | h1 | h1 | h1 | h1 | h1 | h1 | h1 | h1 <;>
    rcases monthAndStart_cases e l with h2 | h2 | h2 | h2 | h2 | h2 | h2 | h2 | h2 | h2 | h2 | h2 <;>
    (have e1 := h1.2; have e2 := h2.2; first | (rw [e1, e2]; done) | (rw [e1, e2] at h; dsimp only at h; omega))

theorem parseNat_replicate_zero (k : Nat) (ds : List Char) :
    parseNat (List.replicate k '0' ++ ds) = parseNat ds := by
  induction k with
  | zero => rfl
  | succ k ih =>
    rw [List.replicate_succ, List.cons_append]
    simp only [parseNat, List.foldl_cons] at ih ⊢
    exact ih

theorem parseNat_padDigits (w n : Nat) : parseNat (padDigits w n) = n := by
  unfold padDigits
  rw [parseNat_replicate_zero, parseNat_natDigits]

theorem padDigits_injective (w a b : Nat) (h : padDigits w a = padDigits w b) : a = b := by
  rw [← parseNat_padDigits w a, ← parseNat_padDigits w b, h]

theorem le_padDigits_length (w n : Nat) : w ≤ (padDigits w n).length := by
  simp only [padDigits, List.length_append, List.length_replicate]
  omega

theorem isoYear_injective (y z : Int) (h : isoYear y = isoYear z) : y = z := by
  unfold isoYear at h
  by_cases hy : 0 ≤ y ∧ y ≤ 9999
  · by_cases hz : 0 ≤ z ∧ z ≤ 9999
    · rw [if_pos hy, if_pos hz] at h
      have := padDigits_injective _ _ _ h
      omega
    · rw [if_pos hy, if_neg hz] at h
      have h1 := padDigits_length 4 y.toNat (by norm_num) (by omega)
      have h2 := le_padDigits_length 6 z.natAbs
      have := congrArg List.length h
      simp only [List.length_cons] at this
      omega
  · by_cases hz : 0 ≤ z ∧ z ≤ 9999
    · rw [if_neg hy, if_pos hz] at h
      have h1 := padDigits_length 4 z.toNat (by norm_num) (by omega)
      have h2 := le_padDigits_length 6 y.natAbs
      have := congrArg List.length h
      simp only [List.length_cons] at this
      omega
    · rw [if_neg hy, if_neg hz] at h
      simp only [List.cons.injEq] at h
      have hab := padDigits_injective _ _ _ h.2
      have hsign : y < 0 ↔ z < 0 := by
        have h1 := h.1
        by_cases hy0 : y < 0 <;> by_cases hz0 : z < 0 <;> simp [hy0, hz0] at h1 ⊢
      omega

theorem list_length_two {α : Type} (l : List α) (h : l.length = 2) : ∃ a b, l = [a, b] := by
  match l, h with
  | [a, b], _ => exact ⟨a, b, rfl⟩

theorem padTwo_injective (a b : Nat) (x y : Char) (ha : padDigits 2 a = [x, y])
    (hb : padDigits 2 b = [x, y]) : a = b :=
  padDigits_injective 2 a b (ha.trans hb.symm)

/-- Equal seconds renderings come from the same whole second. -/
theorem isoSeconds_injective (t u : Int) (h : isoSeconds t = isoSeconds u) :
    t / 1000 = u / 1000 := by
  have bt := dayWithinYear_bounds t
  have bu := dayWithinYear_bounds u
  have mt := monthAndStart_bounds _ _ bt.1 bt.2.1 bt.2.2
  have mu := monthAndStart_bounds _ _ bu.1 bu.2.1 bu.2.2
  have two : ∀ n : Nat, n < 100 → ∃ a b, padDigits 2 n = [a, b] := fun n hn =>
    list_length_two _ (padDigits_length 2 n (by norm_num) (by omega))
  obtain ⟨a1, a2, hmo⟩ := two (MonthFromTime t + 1) (by unfold MonthFromTime; omega)
  obtain ⟨b1, b2, hmo'⟩ := two (MonthFromTime u + 1) (by unfold MonthFromTime; omega)
  obtain ⟨a3, a4, hda⟩ := two (DateFromTime t).toNat (by unfold DateFromTime; omega)
  obtain ⟨b3, b4, hda'⟩ := two (DateFromTime u).toNat (by unfold DateFromTime; omega)
  obtain ⟨a5, a6, hho⟩ := two (HourFromTime t).toNat (by unfold HourFromTime; omega)
  obtain ⟨b5, b6, hho'⟩ := two (HourFromTime u).toNat (by unfold HourFromTime; omega)
  obtain ⟨a7, a8, hmi⟩ := two (MinFromTime t).toNat (by unfold MinFromTime; omega)
  obtain ⟨b7, b8, hmi'⟩ := two (MinFromTime u).toNat (by unfold MinFromTime; omega)
  obtain ⟨a9, a10, hse⟩ := two (SecFromTime t).toNat (by unfold SecFromTime; omega)
  obtain ⟨b9, b10, hse'⟩ := two (SecFromTime u).toNat (by unfold SecFromTime; omega)
  have e1 : isoSeconds t = isoYear (YearFromTime t) ++
      ['-', a1, a2, '-', a3, a4, 'T', a5, a6, ':', a7, a8, ':', a9, a10] := by
    simp [isoSeconds, hmo, hda, hho, hmi, hse]
  have e2 : isoSeconds u = isoYear (YearFromTime u) ++
      ['-', b1, b2, '-', b3, b4, 'T', b5, b6, ':', b7, b8, ':', b9, b10] := by
    simp [isoSeconds, hmo', hda', hho', hmi', hse']
  rw [e1, e2] at h
  have hsplit := List.append_inj' h (by simp)
  obtain ⟨hyear, hrest⟩ := hsplit
  simp only [List.cons.injEq, and_true, true_and] at hrest
  obtain ⟨h1, h2, h3, h4, h5, h6, h7, h8, h9, h10⟩ := hrest
  subst h1 h2 h3 h4 h5 h6 h7 h8 h9 h10
  have hY : YearFromTime t = YearFromTime u := isoYear_injective _ _ hyear
  have hM : MonthFromTime t = MonthFromTime u := by
    have := padTwo_injective _ _ _ _ hmo hmo'
    omega
  have hD : DateFromTime t = DateFromTime u := by
    have := padTwo_injective _ _ _ _ hda hda'
    unfold DateFromTime at this ⊢
    omega
  have hH : HourFromTime t = HourFromTime u := by
    have := padTwo_injective _ _ _ _ hho hho'
    unfold HourFromTime at this ⊢
    omega
  have hMi : MinFromTime t = MinFromTime u := by
    have := padTwo_injective _ _ _ _ hmi hmi'
    unfold MinFromTime at this ⊢
    omega
  have hS : SecFromTime t = SecFromTime u := by
    have := padTwo_injective _ _ _ _ hse hse'
    unfold SecFromTime at this ⊢
    omega
  have hstart := monthAndStart_start (DayWithinYear t) (DayWithinYear u)
    (leapOfYear (YearFromTime t)) (by
      have := hM
      unfold MonthFromTime at this
      rw [← hY] at this
      exact this)
  have hdwy : DayWithinYear t = DayWithinYear u := by
    unfold DateFromTime at hD
    rw [← hY, ← hstart] at hD
    omega
  have hday : Day t = Day u := by
    unfold DayWithinYear at hdwy
    rw [hY] at hdwy
    omega
  unfold Day msPerDay at hday
  unfold HourFromTime at hH
  unfold MinFromTime at hMi
  unfold SecFromTime at hS
  omega

/-! ## The rendering of an integral Number determines it -/

theorem split_at_marker {α : Type} (e : α) (m1 m2 r1 r2 : List α)
    (h1 : e ∉ m1) (h2 : e ∉ m2) (h : m1 ++ e :: r1 = m2 ++ e :: r2) :
    m1 = m2 ∧ r1 = r2 := by
  induction m1 generalizing m2 with
  | nil =>
    cases m2 with
    | nil => simpa using h
    | cons b m2 =>
      simp only [List.nil_append, List.cons_append, List.cons.injEq] at h
      exact absurd (h.1 ▸ List.mem_cons_self _ _) h2
  | cons a m1 ih =>
    cases m2 with
    | nil =>
      simp only [List.nil_append, List.cons_append, List.cons.injEq] at h
      exact absurd (h.1 ▸ List.mem_cons_self _ _) h1
    | cons b m2 =>
      simp only [List.cons_append, List.cons.injEq] at h
      obtain ⟨hab, hrest⟩ := h
      have := ih m2 (fun hm => h1 (List.mem_cons_of_mem _ hm))
        (fun hm => h2 (List.mem_cons_of_mem _ hm)) hrest
      exact ⟨by rw [hab, this.1], this.2⟩

/-- A digit list is its stripped part followed by zeros only. -/
theorem stripTrailingZeros_append (ds : List Char) :
    ds = stripTrailingZeros ds ++
      List.replicate (ds.length - (stripTrailingZeros ds).length) '0' := by
  have hsplit := List.takeWhile_append_dropWhile (fun c => c == '0') ds.reverse
  have hds : ds = (ds.reverse.dropWhile fun c => c == '0').reverse ++
      (ds.reverse.takeWhile fun c => c == '0').reverse := by
    rw [← List.reverse_append, hsplit, List.reverse_reverse]
  have hz : (ds.reverse.takeWhile fun c => c == '0').reverse =
      List.replicate (ds.reverse.takeWhile fun c => c == '0').length '0' := by
    rw [List.eq_replicate_iff]
    refine ⟨by simp, ?_⟩
    intro b hb
    have := List.mem_takeWhile_imp (List.mem_reverse.mp hb)
    simpa using this
  have hlen : ds.length = (stripTrailingZeros ds).length +
      (ds.reverse.takeWhile fun c => c == '0').length := by
    have := congrArg List.length hds
    simpa [stripTrailingZeros] using this
  have hk : ds.length - (stripTrailingZeros ds).length =
      (ds.reverse.takeWhile fun c => c == '0').length := by omega
  rw [hk, ← hz]
  exact hds

theorem stripTrailingZeros_subset (ds : List Char) :
    ∀ c ∈ stripTrailingZeros ds, c ∈ ds := by
  intro c hc
  rw [stripTrailingZeros_append ds]
  exact List.mem_append_left _ hc

/-- The shape of the rendering: plain digits, or a mantissa without `e`
followed by `e+` and the digits of the exponent. -/
theorem natNumberToString_data (x : Nat) :
    (natNumberToString x).data = natDigits (shortestDecimal x) ∨
    ∃ M, (natNumberToString x).data =
        M ++ 'e' :: '+' :: natDigits (numDigits (shortestDecimal x) - 1) ∧
      21 < numDigits (shortestDecimal x) ∧ 'e' ∉ M ∧
      (∃ c rest, M = c :: rest ∧ c.isDigit = true) ∧
      M.filter (fun c => c != '.') = stripTrailingZeros (natDigits (shortestDecimal x)) := by
  have hsub := stripTrailingZeros_subset (natDigits (shortestDecimal x))
  have hdig := natDigits_all_isDigit (shortestDecimal x)
  unfold natNumberToString
  simp only
  by_cases hn : numDigits (shortestDecimal x) ≤ 21
  · left; rw [if_pos hn]; rfl
  · rw [if_neg hn]
    split
    · left; rfl
    · rename_i c heq
      right
      rw [heq] at hsub
      have hc : c.isDigit = true := hdig c (hsub c (by simp))
      refine ⟨[c], by simp [natToString, String.data_append], by omega, ?_, ⟨c, [], rfl, hc⟩, ?_⟩
      · intro hmem
        simp only [List.mem_singleton] at hmem
        rw [← hmem] at hc
        exact absurd hc (by decide)
      · have : c ≠ '.' := fun h => by rw [h] at hc; exact absurd hc (by decide)
        simp [this, heq]
    · rename_i c cs _ heq
      right
      rw [heq] at hsub
      have hall : ∀ d ∈ c :: cs, d.isDigit = true := fun d hd => hdig d (hsub d hd)
      refine ⟨c :: '.' :: cs, by simp [natToString, String.data_append], by omega, ?_,
        ⟨c, _, rfl, hall c (by simp)⟩, ?_⟩
      · intro hmem
        simp only [List.mem_cons] at hmem
        rcases hmem with h | h | h
        · have := hall c (by simp)
          rw [← h] at this
          exact absurd this (by decide)
        · exact absurd h (by decide)
        · exact absurd (hall _ (List.mem_cons_of_mem _ h)) (by decide)
      · have hne : ∀ d ∈ c :: cs, (d != '.') = true := by
          intro d hd
          have := hall d hd
          simp only [bne_iff_ne, ne_eq]
          intro h
          rw [h] at this
          exact absurd this (by decide)
        have hc := hne c (by simp)
        have hcs : List.filter (fun c => c != '.') cs = cs :=
          List.filter_eq_self.mpr (fun d hd => hne d (List.mem_cons_of_mem _ hd))
        simp [List.filter_cons, hc, hcs, heq]

theorem natNumberToString_head (x : Nat) :
    ∃ c rest, (natNumberToString x).data = c :: rest ∧ c.isDigit = true := by
  rcases natNumberToString_data x with h | ⟨M, h, _, _, ⟨c, rest, hM, hc⟩, _⟩
  · rw [h]
    have hne := natDigits_ne_nil (shortestDecimal x)
    have hall := natDigits_all_isDigit (shortestDecimal x)
    cases hd : natDigits (shortestDecimal x) with
    | nil => exact absurd hd hne
    | cons c rest =>
      rw [hd] at hall
      exact ⟨c, rest, rfl, hall c (by simp)⟩
  · rw [h, hM]
    exact ⟨c, _, rfl, hc⟩

/-- Equal renderings come from the same decimal. -/
theorem shortestDecimal_of_string_eq (x y : Nat)
    (h : natNumberToString x = natNumberToString y) : shortestDecimal x = shortestDecimal y := by
  have hd : (natNumberToString x).data = (natNumberToString y).data := by rw [h]
  have noE : ∀ v : Nat, 'e' ∉ natDigits v := fun v hm =>
    absurd (natDigits_all_isDigit v _ hm) (by decide)
  rcases natNumberToString_data x with hx | ⟨M, hx, hnx, hMe, _, hMf⟩ <;>
    rcases natNumberToString_data y with hy | ⟨N, hy, hny, hNe, _, hNf⟩
  · rw [hx, hy] at hd
    exact natDigits_injective _ _ hd
  · rw [hx, hy] at hd
    have : 'e' ∈ natDigits (shortestDecimal x) := by rw [hd]; simp
    exact absurd this (noE _)
  · rw [hx, hy] at hd
    have : 'e' ∈ natDigits (shortestDecimal y) := by rw [← hd]; simp
    exact absurd this (noE _)
  · rw [hx, hy] at hd
    obtain ⟨hMN, hrest⟩ := split_at_marker 'e' M N _ _ hMe hNe hd
    simp only [List.cons.injEq, true_and] at hrest
    have hexp := natDigits_injective _ _ hrest
    have hlen : (natDigits (shortestDecimal x)).length = (natDigits (shortestDecimal y)).length := by
      simp only [numDigits] at hexp hnx hny
      omega
    have hstrip : stripTrailingZeros (natDigits (shortestDecimal x)) =
        stripTrailingZeros (natDigits (shortestDecimal y)) := by
      rw [← hMf, ← hNf, hMN]
    apply natDigits_injective
    rw [stripTrailingZeros_append (natDigits (shortestDecimal x)),
      stripTrailingZeros_append (natDigits (shortestDecimal y)), hstrip, hlen]

/-- The rendering `String(v)` tells binary64 integers apart. -/
theorem intNumberToString_injective (n m : Int) (hn : isDoubleInt n = true)
    (hm : isDoubleInt m = true) (h : intNumberToString n = intNumberToString m) : n = m := by
  have hrn : roundToDouble n.natAbs = some n.natAbs := by
    simpa [isDoubleInt, isDoubleNat] using hn
  have hrm : roundToDouble m.natAbs = some m.natAbs := by
    simpa [isDoubleInt, isDoubleNat] using hm
  have key : natNumberToString n.natAbs = natNumberToString m.natAbs → n.natAbs = m.natAbs := by
    intro hs
    have hv := shortestDecimal_of_string_eq _ _ hs
    have h1 := shortestDecimal_sound _ hrn
    have h2 := shortestDecimal_sound _ hrm
    rw [hv, h2] at h1
    exact (Option.some.inj h1).symm
  have hd : (intNumberToString n).data = (intNumberToString m).data := by rw [h]
  have minus : ∀ k : Nat, ("-" ++ natNumberToString k).data = '-' :: (natNumberToString k).data :=
    fun k => rfl
  obtain ⟨c1, r1, ha1, hc1⟩ := natNumberToString_head n.natAbs
  obtain ⟨c2, r2, ha2, hc2⟩ := natNumberToString_head m.natAbs
  unfold intNumberToString at hd h
  by_cases h1 : n < 0 <;> by_cases h2 : m < 0
  · rw [if_pos h1, if_pos h2, minus, minus] at hd
    simp only [List.cons.injEq, true_and] at hd
    have := key (by
      cases hx : natNumberToString n.natAbs
      cases hy : natNumberToString m.natAbs
      rw [hx, hy] at hd
      simp only at hd
      rw [hd])
    omega
  · rw [if_pos h1, if_neg h2, minus, ha1, ha2] at hd
    simp only [List.cons.injEq] at hd
    rw [← hd.1] at hc2
    exact absurd hc2 (by decide)
  · rw [if_neg h1, if_pos h2, minus, ha1, ha2] at hd
    simp only [List.cons.injEq] at hd
    rw [hd.1] at hc1
    exact absurd hc1 (by decide)
  · rw [if_neg h1, if_neg h2] at h
    have := key h
    omega

/-! ## Totality -/

mutual
theorem toFsValue_ok_iff : (v : JsValue) →
    ((∃ w, toFsValue v = .ok w) ↔ v.datesValid = true)
  | .null => by simp [toFsValue, JsValue.datesValid]
  | .undefined => by simp [toFsValue, JsValue.datesValid]
  | .bool _ => by simp [toFsValue, JsValue.datesValid]
  | .number x => by
    cases h : x.asInteger <;> simp [toFsValue, JsValue.datesValid, h]
  | .string _ => by simp [toFsValue, JsValue.datesValid]
  | .date none => by simp [toFsValue, JsValue.datesValid, isoUtc, toISOString, Except.map]
  | .date (some t) => by simp [toFsValue, JsValue.datesValid, isoUtc_eq]
  | .array items => by
    have ih := mapToFsValue_ok_iff items
    cases h : mapToFsValue items with
    | ok ws =>
      have : allDatesValid items = true := ih.mp ⟨ws, h⟩
      simp [toFsValue, JsValue.datesValid, h, this]
    | error e =>
      have : ¬ allDatesValid items = true := fun hv => by
        obtain ⟨ws, hws⟩ := ih.mpr hv
        rw [h] at hws
        cases hws
      simp [toFsValue, JsValue.datesValid, h, this]
  | .object entries => by
    have ih := entriesToFsValue_ok_iff entries
    cases h : entriesToFsValue entries with
    | ok es =>
      have : entriesDatesValid entries = true := ih.mp ⟨es, h⟩
      simp [toFsValue, JsValue.datesValid, h, this]
    | error e =>
      have : ¬ entriesDatesValid entries = true := fun hv => by
        obtain ⟨es, hes⟩ := ih.mpr hv
        rw [h] at hes
        cases hes
      simp [toFsValue, JsValue.datesValid, h, this]
theorem mapToFsValue_ok_iff : (vs : List JsValue) →
    ((∃ ws, mapToFsValue vs = .ok ws) ↔ allDatesValid vs = true)
  | [] => by simp [mapToFsValue, allDatesValid]
  | v :: vs => by
    have ih1 := toFsValue_ok_iff v
    have ih2 := mapToFsValue_ok_iff vs
    cases h1 : toFsValue v with
    | error e =>
      have : ¬ v.datesValid = true := fun hv => by
        obtain ⟨w, hw⟩ := ih1.mpr hv
        rw [h1] at hw
        cases hw
      simp [mapToFsValue, allDatesValid, h1, this]
    | ok w =>
      have hv : v.datesValid = true := ih1.mp ⟨w, h1⟩
      cases h2 : mapToFsValue vs with
      | error e =>
        have : ¬ allDatesValid vs = true := fun hvs => by
          obtain ⟨ws, hws⟩ := ih2.mpr hvs
          rw [h2] at hws
          cases hws
        simp [mapToFsValue, allDatesValid, h1, h2, this]
      | ok ws =>
        have : allDatesValid vs = true := ih2.mp ⟨ws, h2⟩
        simp [mapToFsValue, allDatesValid, h1, h2, hv, this]
theorem entriesToFsValue_ok_iff : (es : List (String × JsValue)) →
    ((∃ fs, entriesToFsValue es = .ok fs) ↔ entriesDatesValid es = true)
  | [] => by simp [entriesToFsValue, entriesDatesValid]
  | (k, v) :: rest => by
    have ih1 := toFsValue_ok_iff v
    have ih2 := entriesToFsValue_ok_iff rest
    cases h1 : toFsValue v with
    | error e =>
      have : ¬ v.datesValid = true := fun hv => by
        obtain ⟨w, hw⟩ := ih1.mpr hv
        rw [h1] at hw
        cases hw
      simp [entriesToFsValue, entriesDatesValid, h1, this]
    | ok w =>
      have hv : v.datesValid = true := ih1.mp ⟨w, h1⟩
      cases h2 : entriesToFsValue rest with
      | error e =>
        have : ¬ entriesDatesValid rest = true := fun hvs => by
          obtain ⟨ws, hws⟩ := ih2.mpr hvs
          rw [h2] at hws
          cases hws
        simp [entriesToFsValue, entriesDatesValid, h1, h2, this]
      | ok ws =>
        have : entriesDatesValid rest = true := ih2.mp ⟨ws, h2⟩
        simp [entriesToFsValue, entriesDatesValid, h1, h2, hv, this]
end

theorem kindTag_mem (w : WireValue) : w.kindTag ∈ kindTags := by
  cases w <;> simp [WireValue.kindTag, kindTags]

mutual
theorem toFsValue_error_eq : (v : JsValue) → (e : JsError) → toFsValue v = .error e →
    e = invalidTime
  | .null, e, h => by simp [toFsValue] at h
  | .undefined, e, h => by simp [toFsValue] at h
  | .bool _, e, h => by simp [toFsValue] at h
  | .string _, e, h => by simp [toFsValue] at h
  | .number x, e, h => by
    cases hx : x.asInteger <;> simp [toFsValue, hx] at h
  | .date none, e, h => by
    simp only [toFsValue, isoUtc, toISOString, Except.map, Except.error.injEq] at h
    exact h.symm
  | .date (some t), e, h => by simp [toFsValue, isoUtc_eq] at h
  | .array items, e, h => by
    simp only [toFsValue] at h
    cases h1 : mapToFsValue items with
    | ok ws => rw [h1] at h; cases h
    | error e1 =>
      rw [h1] at h
      simp only [Except.error.injEq] at h
      rw [← h]
      exact mapToFsValue_error_eq items e1 h1
  | .object entries, e, h => by
    simp only [toFsValue] at h
    cases h1 : entriesToFsValue entries with
    | ok es => rw [h1] at h; cases h
    | error e1 =>
      rw [h1] at h
      simp only [Except.error.injEq] at h
      rw [← h]
      exact entriesToFsValue_error_eq entries e1 h1
theorem mapToFsValue_error_eq : (vs : List JsValue) → (e : JsError) →
    mapToFsValue vs = .error e → e = invalidTime
  | [], e, h => by simp [mapToFsValue] at h
  | v :: vs, e, h => by
    unfold mapToFsValue at h
    cases h1 : toFsValue v with
    | error e1 =>
      rw [h1] at h
      simp only [Except.error.injEq] at h
      rw [← h]
      exact toFsValue_error_eq v e1 h1
    | ok w =>
      cases h2 : mapToFsValue vs with
      | ok ws => rw [h1, h2] at h; cases h
      | error e2 =>
        rw [h1, h2] at h
        simp only [Except.error.injEq] at h
        rw [← h]
        exact mapToFsValue_error_eq vs e2 h2
theorem entriesToFsValue_error_eq : (es : List (String × JsValue)) → (e : JsError) →
    entriesToFsValue es = .error e → e = invalidTime
  | [], e, h => by simp [entriesToFsValue] at h
  | (k, v) :: rest, e, h => by
    unfold entriesToFsValue at h
    cases h1 : toFsValue v with
    | error e1 =>
      rw [h1] at h
      simp only [Except.error.injEq] at h
      rw [← h]
      exact toFsValue_error_eq v e1 h1
    | ok w =>
      cases h2 : entriesToFsValue rest with
      | ok ws => rw [h1, h2] at h; cases h
      | error e2 =>
        rw [h1, h2] at h
        simp only [Except.error.injEq] at h
        rw [← h]
        exact entriesToFsValue_error_eq rest e2 h2
end

mutual
theorem toFsValueWithin_eq : (v : JsValue) → (frames : Nat) → v.depth ≤ frames →
    toFsValueWithin frames v = toFsValue v
  | .null, frames, h => by
    have : frames ≠ 0 := by simp only [JsValue.depth] at h; omega
    simp [toFsValueWithin, toFsValue, this]
  | .undefined, frames, h => by
    have : frames ≠ 0 := by simp only [JsValue.depth] at h; omega
    simp [toFsValueWithin, toFsValue, this]
  | .bool _, frames, h => by
    have : frames ≠ 0 := by simp only [JsValue.depth] at h; omega
    simp [toFsValueWithin, toFsValue, this]
  | .string _, frames, h => by
    have : frames ≠ 0 := by simp only [JsValue.depth] at h; omega
    simp [toFsValueWithin, toFsValue, this]
  | .number _, frames, h => by
    have : frames ≠ 0 := by simp only [JsValue.depth] at h; omega
    simp [toFsValueWithin, toFsValue, this]
  | .date _, frames, h => by
    have : frames ≠ 0 := by simp only [JsValue.depth] at h; omega
    simp [toFsValueWithin, toFsValue, this]
  | .array items, frames, h => by
    simp only [JsValue.depth] at h
    have h0 : frames ≠ 0 := by omega
    simp only [toFsValueWithin, toFsValue, h0, if_false]
    rw [mapToFsValueWithin_eq items (frames - 1) (by omega)]
  | .object entries, frames, h => by
    simp only [JsValue.depth] at h
    have h0 : frames ≠ 0 := by omega
    simp only [toFsValueWithin, toFsValue, h0, if_false]
    rw [entriesToFsValueWithin_eq entries (frames - 1) (by omega)]
theorem mapToFsValueWithin_eq : (vs : List JsValue) → (frames : Nat) →
    maxDepth vs ≤ frames → mapToFsValueWithin frames vs = mapToFsValue vs
  | [], _, _ => by simp [mapToFsValueWithin, mapToFsValue]
  | v :: vs, frames, h => by
    simp only [maxDepth, max_le_iff] at h
    simp only [mapToFsValueWithin, mapToFsValue]
    rw [toFsValueWithin_eq v frames h.1, mapToFsValueWithin_eq vs frames h.2]
theorem entriesToFsValueWithin_eq : (es : List (String × JsValue)) → (frames : Nat) →
    maxDepthEntries es ≤ frames → entriesToFsValueWithin frames es = entriesToFsValue es
  | [], _, _ => by simp [entriesToFsValueWithin, entriesToFsValue]
  | (k, v) :: rest, frames, h => by
    simp only [maxDepthEntries, max_le_iff] at h
    simp only [entriesToFsValueWithin, entriesToFsValue]
    rw [toFsValueWithin_eq v frames h.1, entriesToFsValueWithin_eq rest frames h.2]
end

theorem toFsValue_kindTag (v : JsValue) (w : WireValue) (h : toFsValue v = .ok w) :
    w.kindTag = v.expectedTag := by
  cases v with
  | null => simp only [toFsValue, Except.ok.injEq] at h; subst h; rfl
  | undefined => simp only [toFsValue, Except.ok.injEq] at h; subst h; rfl
  | bool b => simp only [toFsValue, Except.ok.injEq] at h; subst h; rfl
  | string s => simp only [toFsValue, Except.ok.injEq] at h; subst h; rfl
  | number x =>
    simp only [toFsValue] at h
    cases hx : x.asInteger with
    | some n =>
      simp only [hx, Except.ok.injEq] at h
      subst h
      simp [JsValue.expectedTag, JsNumber.isInteger, hx, WireValue.kindTag]
    | none =>
      simp only [hx, Except.ok.injEq] at h
      subst h
      simp [JsValue.expectedTag, JsNumber.isInteger, hx, WireValue.kindTag]
  | date tv =>
    simp only [toFsValue] at h
    cases h1 : isoUtc tv with
    | error e => rw [h1] at h; cases h
    | ok s1 =>
      rw [h1] at h
      simp only [Except.ok.injEq] at h
      subst h; rfl
  | array items =>
    simp only [toFsValue] at h
    cases h1 : mapToFsValue items with
    | error e => rw [h1] at h; cases h
    | ok ws =>
      rw [h1] at h
      simp only [Except.ok.injEq] at h
      subst h; rfl
  | object entries =>
    simp only [toFsValue] at h
    cases h1 : entriesToFsValue entries with
    | error e => rw [h1] at h; cases h
    | ok es =>
      rw [h1] at h
      simp only [Except.ok.injEq] at h
      subst h; rfl

/-- C2 (amended): `toFsValue` terminates on every value. When every `Date`
inside the value is a valid date it returns a wire value, whose single kind tag
is the one of the eight that the kind of the value calls for; when an Invalid
Date occurs anywhere inside, at any depth, it throws the `RangeError` of
`toISOString` and returns nothing. A call stack that holds as many nested calls
as the value has nesting levels changes none of this. -/
theorem toFsValue_total_on_valid_dates (v : JsValue) :
    ((∃ w, toFsValue v = .ok w) ↔ v.datesValid = true) ∧
    (v.datesValid = true →
      ∃ w, toFsValue v = .ok w ∧ w.kindTag = v.expectedTag ∧ w.kindTag ∈ kindTags) ∧
    (v.datesValid = false → toFsValue v = .error (.rangeError "Invalid time value")) ∧
    (∀ e, toFsValue v = .error e → e = .rangeError "Invalid time value") ∧
    (∀ w, toFsValue v = .ok w → w.kindTag = v.expectedTag ∧ w.kindTag ∈ kindTags) ∧
    (∀ frames, v.depth ≤ frames → toFsValueWithin frames v = toFsValue v) := by
  refine ⟨toFsValue_ok_iff v, ?_, ?_, fun e he => toFsValue_error_eq v e he,
    fun w hw => ⟨toFsValue_kindTag v w hw, kindTag_mem w⟩,
    fun frames h => toFsValueWithin_eq v frames h⟩
  · intro hv
    obtain ⟨w, hw⟩ := (toFsValue_ok_iff v).mpr hv
    exact ⟨w, hw, toFsValue_kindTag v w hw, kindTag_mem w⟩
  · intro hv
    cases h : toFsValue v with
    | ok w =>
      have := (toFsValue_ok_iff v).mp ⟨w, h⟩
      rw [hv] at this
      cases this
    | error e =>
      rw [toFsValue_error_eq v e h]
      rfl

/-- Witness for C2 (amended): a record holding every kind of value. -/
theorem toFsValue_total_on_valid_dates_witness :
    ∃ w, toFsValue (.object [("a", .null), ("b", .bool true), ("c", .number (.finite 45)),
        ("d", .number .nan), ("e", .date (some 0)), ("f", .array [.string "x"]),
        ("g", .object []), ("h", .string "y")]) = .ok w ∧
      w.kindTag = (JsValue.object [("a", .null), ("b", .bool true),
        ("c", .number (.finite 45)), ("d", .number .nan), ("e", .date (some 0)),
        ("f", .array [.string "x"]), ("g", .object []), ("h", .string "y")]).expectedTag ∧
      w.kindTag ∈ kindTags :=
  (toFsValue_total_on_valid_dates (.object [("a", .null), ("b", .bool true),
    ("c", .number (.finite 45)), ("d", .number .nan), ("e", .date (some 0)),
    ("f", .array [.string "x"]), ("g", .object []), ("h", .string "y")])).2.1 rfl

/-- C2 fails on an Invalid Date (a `Date` whose time value is `NaN`), alone or
nested in a record and an array: `toFsValue` throws the `RangeError` of
`toISOString` and returns nothing. -/
theorem toFsValue_throws_on_invalid_date :
    toFsValue (.date none) = .error (.rangeError "Invalid time value") ∧
    (¬ ∃ w, toFsValue (.date none) = .ok w) ∧
    toFsValue (.object [("title", .string "Demo"), ("slots", .array [.date (some 0), .date none])])
      = .error (.rangeError "Invalid time value") := by
  refine ⟨rfl, ?_, rfl⟩
  rintro ⟨w, hw⟩
  cases hw

/-- The call-stack bound bites exactly below the nesting depth: one frame is
not enough for an array with an element, two are. -/
theorem toFsValueWithin_known_outputs :
    toFsValueWithin 1 (.array [.null]) = .error stackOverflow ∧
    toFsValueWithin 2 (.array [.null]) = .ok (.arrayValue [.nullValue]) ∧
    toFsValueWithin 0 .null = .error stackOverflow := by
  refine ⟨rfl, rfl, rfl⟩

/-! ## Round trip -/

mutual
theorem recoverable_datesValid : (v : JsValue) → v.recoverable = true → v.datesValid = true
  | .null, _ => rfl
  | .undefined, _ => rfl
  | .bool _, _ => rfl
  | .number _, _ => rfl
  | .string _, _ => rfl
  | .date none, h => by simp [JsValue.recoverable] at h
  | .date (some _), _ => rfl
  | .array items, h => by
    simp only [JsValue.recoverable] at h
    simpa [JsValue.datesValid] using allRecoverable_datesValid items h
  | .object entries, h => by
    simp only [JsValue.recoverable, Bool.and_eq_true] at h
    simpa [JsValue.datesValid] using entriesRecoverable_datesValid entries h.2
theorem allRecoverable_datesValid : (vs : List JsValue) → allRecoverable vs = true →
    allDatesValid vs = true
  | [], _ => rfl
  | v :: vs, h => by
    simp only [allRecoverable, Bool.and_eq_true] at h
    simp [allDatesValid, recoverable_datesValid v h.1, allRecoverable_datesValid vs h.2]
theorem entriesRecoverable_datesValid : (es : List (String × JsValue)) →
    entriesRecoverable es = true → entriesDatesValid es = true
  | [], _ => rfl
  | (_, v) :: rest, h => by
    simp only [entriesRecoverable, Bool.and_eq_true] at h
    simp [entriesDatesValid, recoverable_datesValid v h.1,
      entriesRecoverable_datesValid rest h.2]
end

theorem entriesToFsValue_keys (es : List (String × JsValue)) (fs : List (String × WireValue))
    (h : entriesToFsValue es = .ok fs) : fs.map Prod.fst = es.map Prod.fst := by
  induction es generalizing fs with
  | nil =>
    simp only [entriesToFsValue, Except.ok.injEq] at h
    subst h; rfl
  | cons e rest ih =>
    obtain ⟨k, v⟩ := e
    unfold entriesToFsValue at h
    cases h1 : toFsValue v with
    | error err => rw [h1] at h; cases h
    | ok w =>
      cases h2 : entriesToFsValue rest with
      | error err => rw [h1, h2] at h; cases h
      | ok ws =>
        rw [h1, h2] at h
        simp only [Except.ok.injEq] at h
        subst h
        simp [ih ws h2]

/-- What `toFsValue` returns, by the kind of its argument. -/
theorem toFsValue_inv (v : JsValue) (e : WireValue) (h : toFsValue v = .ok e) :
    match v with
    | .null => e = .nullValue
    | .undefined => e = .nullValue
    | .bool b => e = .booleanValue b
    | .number x =>
      e = match x.asInteger with
        | some n => .integerValue (intNumberToString n)
        | none => .doubleValue x
    | .date tv => ∃ t, tv = some t ∧ e = .timestampValue (String.mk (isoSeconds t ++ ['Z']))
    | .array items => ∃ ws, mapToFsValue items = .ok ws ∧ e = .arrayValue ws
    | .object entries =>
      ∃ fs, entriesToFsValue entries = .ok fs ∧ e = .mapValue (fromEntries fs)
    | .string s => e = .stringValue s := by
  cases v with
  | null => simpa [toFsValue] using h.symm
  | undefined => simpa [toFsValue] using h.symm
  | bool b => simpa [toFsValue] using h.symm
  | string s => simpa [toFsValue] using h.symm
  | number x =>
    simp only [toFsValue] at h
    cases hx : x.asInteger with
    | some n =>
      simp only [hx, Except.ok.injEq] at h ⊢
      exact h.symm
    | none =>
      simp only [hx, Except.ok.injEq] at h ⊢
      exact h.symm
  | date tv =>
    cases tv with
    | none => simp [toFsValue, isoUtc, toISOString, Except.map] at h
    | some t =>
      simp only [toFsValue, isoUtc_eq, Except.ok.injEq] at h
      exact ⟨t, rfl, h.symm⟩
  | array items =>
    simp only [toFsValue] at h
    cases h1 : mapToFsValue items with
    | error err => rw [h1] at h; cases h
    | ok ws =>
      rw [h1] at h
      simp only [Except.ok.injEq] at h
      exact ⟨ws, h1, h.symm⟩
  | object entries =>
    simp only [toFsValue] at h
    cases h1 : entriesToFsValue entries with
    | error err => rw [h1] at h; cases h
    | ok fs =>
      rw [h1] at h
      simp only [Except.ok.injEq] at h
      exact ⟨fs, h1, h.symm⟩

theorem toFsValue_of_recoverable (v : JsValue) (h : v.recoverable = true) :
    ∃ e, toFsValue v = .ok e :=
  (toFsValue_ok_iff v).mpr (recoverable_datesValid v h)

theorem jsNumber_eq_of_string_eq (x y : JsNumber) (n m : Int)
    (hx : (x.isDouble && !x.isNegZero) = true) (hy : (y.isDouble && !y.isNegZero) = true)
    (hxi : x.asInteger = some n) (hyi : y.asInteger = some m)
    (h : intNumberToString n = intNumberToString m) : x = y := by
  simp only [Bool.and_eq_true, Bool.not_eq_true', JsNumber.isDouble, hxi, hyi] at hx hy
  obtain ⟨hx, hxz⟩ := hx
  obtain ⟨hy, hyz⟩ := hy
  have hnm := intNumberToString_injective n m hx hy h
  cases x with
  | finite q =>
    cases y with
    | finite r =>
      simp only [JsNumber.asInteger] at hxi hyi
      split at hxi
      · split at hyi
        · rename_i hq hr
          simp only [beq_iff_eq] at hq hr
          simp only [Option.some.injEq] at hxi hyi
          congr 1
          exact Rat.ext (by rw [hxi, hyi, hnm]) (by rw [hq, hr])
        · cases hyi
      · cases hxi
    | negZero => simp [JsNumber.isNegZero] at hyz
    | nan => simp [JsNumber.asInteger] at hyi
    | posInf => simp [JsNumber.asInteger] at hyi
    | negInf => simp [JsNumber.asInteger] at hyi
  | negZero => simp [JsNumber.isNegZero] at hxz
  | nan => simp [JsNumber.asInteger] at hxi
  | posInf => simp [JsNumber.asInteger] at hxi
  | negInf => simp [JsNumber.asInteger] at hxi

mutual
theorem toFsValue_injective_aux : (v w : JsValue) → v.recoverable = true →
    w.recoverable = true → (e : WireValue) → toFsValue v = .ok e → toFsValue w = .ok e →
    v = w
  | .null, w, _, hw2, e, hv, hw => by
    have a := toFsValue_inv _ e hv
    simp only at a
    subst a
    cases w <;> have b := toFsValue_inv _ _ hw <;> simp only at b
    all_goals first
      | rfl
      | (simp [JsValue.recoverable] at hw2; done)
      | (cases b; done)
      | (split at b <;> cases b; done)
      | (obtain ⟨_, _, b1⟩ := b; cases b1; done)
  | .undefined, _, hv2, _, _, _, _ => by simp [JsValue.recoverable] at hv2
  | .bool c, w, _, hw2, e, hv, hw => by
    have a := toFsValue_inv _ e hv
    simp only at a
    subst a
    cases w <;> have b := toFsValue_inv _ _ hw <;> simp only at b
    all_goals first
      | (simp [JsValue.recoverable] at hw2; done)
      | (cases b; rfl)
      | (cases b; done)
      | (split at b <;> cases b; done)
      | (obtain ⟨_, _, b1⟩ := b; cases b1; done)
  | .string c, w, _, hw2, e, hv, hw => by
    have a := toFsValue_inv _ e hv
    simp only at a
    subst a
    cases w <;> have b := toFsValue_inv _ _ hw <;> simp only at b
    all_goals first
      | (simp [JsValue.recoverable] at hw2; done)
      | (cases b; rfl)
      | (cases b; done)
      | (split at b <;> cases b; done)
      | (obtain ⟨_, _, b1⟩ := b; cases b1; done)
  | .number x, w, hv2, hw2, e, hv, hw => by
    have a := toFsValue_inv _ e hv
    simp only at a
    cases w with
    | number y =>
      have b := toFsValue_inv _ e hw
      simp only at b
      simp only [JsValue.recoverable] at hv2 hw2
      congr 1
      cases hx : x.asInteger with
      | some n =>
        cases hy : y.asInteger with
        | some m =>
          simp only [hx] at a
          simp only [hy, a, WireValue.integerValue.injEq] at b
          exact jsNumber_eq_of_string_eq x y n m hv2 hw2 hx hy b
        | none =>
          simp only [hx] at a
          simp only [hy, a] at b
          cases b
      | none =>
        cases hy : y.asInteger with
        | some m =>
          simp only [hx] at a
          simp only [hy, a] at b
          cases b
        | none =>
          simp only [hx] at a
          simp only [hy, a, WireValue.doubleValue.injEq] at b
          exact b
    | undefined => simp [JsValue.recoverable] at hw2
    | null => have b := toFsValue_inv _ e hw; simp only at b; subst b; split at a <;> cases a
    | bool _ => have b := toFsValue_inv _ e hw; simp only at b; subst b; split at a <;> cases a
    | string _ => have b := toFsValue_inv _ e hw; simp only at b; subst b; split at a <;> cases a
    | date _ =>
      have b := toFsValue_inv _ e hw
      simp only at b
      obtain ⟨_, _, b1⟩ := b
      subst b1
      split at a <;> cases a
    | array _ =>
      have b := toFsValue_inv _ e hw
      simp only at b
      obtain ⟨_, _, b1⟩ := b
      subst b1
      split at a <;> cases a
    | object _ =>
      have b := toFsValue_inv _ e hw
      simp only at b
      obtain ⟨_, _, b1⟩ := b
      subst b1
      split at a <;> cases a
  | .date tv, w, hv2, hw2, e, hv, hw => by
    have a := toFsValue_inv _ e hv
    simp only at a
    obtain ⟨t, htv, a1⟩ := a
    subst htv a1
    cases w with
    | date uv =>
      have b := toFsValue_inv _ _ hw
      simp only at b
      obtain ⟨u, huv, b1⟩ := b
      subst huv
      simp only [WireValue.timestampValue.injEq] at b1
      have b2 : isoSeconds t ++ ['Z'] = isoSeconds u ++ ['Z'] := congrArg String.data b1
      have hsec := isoSeconds_injective t u (List.append_cancel_right b2)
      simp only [JsValue.recoverable, beq_iff_eq] at hv2 hw2
      have : t = u := by omega
      rw [this]
    | undefined => simp [JsValue.recoverable] at hw2
    | null => have b := toFsValue_inv _ _ hw; simp only at b; cases b
    | bool _ => have b := toFsValue_inv _ _ hw; simp only at b; cases b
    | string _ => have b := toFsValue_inv _ _ hw; simp only at b; cases b
    | number _ => have b := toFsValue_inv _ _ hw; simp only at b; split at b <;> cases b
    | array _ =>
      have b := toFsValue_inv _ _ hw
      simp only at b
      obtain ⟨_, _, b1⟩ := b
      cases b1
    | object _ =>
      have b := toFsValue_inv _ _ hw
      simp only at b
      obtain ⟨_, _, b1⟩ := b
      cases b1
  | .array items, w, hv2, hw2, e, hv, hw => by
    have a := toFsValue_inv _ e hv
    simp only at a
    obtain ⟨ws, hws, a1⟩ := a
    subst a1
    cases w with
    | array items2 =>
      have b := toFsValue_inv _ _ hw
      simp only at b
      obtain ⟨ws2, hws2, b1⟩ := b
      simp only [WireValue.arrayValue.injEq] at b1
      subst b1
      simp only [JsValue.recoverable] at hv2 hw2
      rw [mapToFsValue_injective_aux items items2 hv2 hw2 ws hws hws2]
    | undefined => simp [JsValue.recoverable] at hw2
    | null => have b := toFsValue_inv _ _ hw; simp only at b; cases b
    | bool _ => have b := toFsValue_inv _ _ hw; simp only at b; cases b
    | string _ => have b := toFsValue_inv _ _ hw; simp only at b; cases b
    | number _ => have b := toFsValue_inv _ _ hw; simp only at b; split at b <;> cases b
    | date _ =>
      have b := toFsValue_inv _ _ hw
      simp only at b
      obtain ⟨_, _, b1⟩ := b
      cases b1
    | object _ =>
      have b := toFsValue_inv _ _ hw
      simp only at b
      obtain ⟨_, _, b1⟩ := b
      cases b1
  | .object es, w, hv2, hw2, e, hv, hw => by
    have a := toFsValue_inv _ e hv
    simp only at a
    obtain ⟨fs, hfs, a1⟩ := a
    subst a1
    cases w with
    | object es2 =>
      have b := toFsValue_inv _ _ hw
      simp only at b
      obtain ⟨fs2, hfs2, b1⟩ := b
      simp only [JsValue.recoverable, Bool.and_eq_true, decide_eq_true_eq] at hv2 hw2
      have k1 := entriesToFsValue_keys es fs hfs
      have k2 := entriesToFsValue_keys es2 fs2 hfs2
      rw [fromEntries_of_nodup fs (by rw [k1]; exact hv2.1),
        fromEntries_of_nodup fs2 (by rw [k2]; exact hw2.1)] at b1
      simp only [WireValue.mapValue.injEq] at b1
      subst b1
      rw [entriesToFsValue_injective_aux es es2 hv2.2 hw2.2 fs hfs hfs2]
    | undefined => simp [JsValue.recoverable] at hw2
    | null => have b := toFsValue_inv _ _ hw; simp only at b; cases b
    | bool _ => have b := toFsValue_inv _ _ hw; simp only at b; cases b
    | string _ => have b := toFsValue_inv _ _ hw; simp only at b; cases b
    | number _ => have b := toFsValue_inv _ _ hw; simp only at b; split at b <;> cases b
    | date _ =>
      have b := toFsValue_inv _ _ hw
      simp only at b
      obtain ⟨_, _, b1⟩ := b
      cases b1
    | array _ =>
      have b := toFsValue_inv _ _ hw
      simp only at b
      obtain ⟨_, _, b1⟩ := b
      cases b1
theorem mapToFsValue_injective_aux : (vs ws : List JsValue) → allRecoverable vs = true →
    allRecoverable ws = true → (es : List WireValue) → mapToFsValue vs = .ok es →
    mapToFsValue ws = .ok es → vs = ws
  | [], ws, _, _, es, hv, hw => by
    simp only [mapToFsValue, Except.ok.injEq] at hv
    subst hv
    cases ws with
    | nil => rfl
    | cons w ws =>
      unfold mapToFsValue at hw
      split at hw
      · split at hw <;> cases hw
      · cases hw
  | v :: vs, ws, hv2, hw2, es, hv, hw => by
    simp only [allRecoverable, Bool.and_eq_true] at hv2
    obtain ⟨e1, he1⟩ := toFsValue_of_recoverable v hv2.1
    unfold mapToFsValue at hv
    rw [he1] at hv
    cases hrest : mapToFsValue vs with
    | error err => rw [hrest] at hv; cases hv
    | ok es1 =>
      rw [hrest] at hv
      simp only [Except.ok.injEq] at hv
      subst hv
      cases ws with
      | nil => simp [mapToFsValue] at hw
      | cons w ws =>
        simp only [allRecoverable, Bool.and_eq_true] at hw2
        obtain ⟨e2, he2⟩ := toFsValue_of_recoverable w hw2.1
        unfold mapToFsValue at hw
        rw [he2] at hw
        cases hrest2 : mapToFsValue ws with
        | error err => rw [hrest2] at hw; cases hw
        | ok es2 =>
          rw [hrest2] at hw
          simp only [Except.ok.injEq, List.cons.injEq] at hw
          obtain ⟨h1, h2⟩ := hw
          subst h1 h2
          rw [toFsValue_injective_aux v w hv2.1 hw2.1 e2 he1 he2,
            mapToFsValue_injective_aux vs ws hv2.2 hw2.2 es2 hrest hrest2]
theorem entriesToFsValue_injective_aux : (es fs : List (String × JsValue)) →
    entriesRecoverable es = true → entriesRecoverable fs = true →
    (ws : List (String × WireValue)) → entriesToFsValue es = .ok ws →
    entriesToFsValue fs = .ok ws → es = fs
  | [], fs, _, _, ws, hv, hw => by
    simp only [entriesToFsValue, Except.ok.injEq] at hv
    subst hv
    cases fs with
    | nil => rfl
    | cons f fs =>
      obtain ⟨k, w⟩ := f
      unfold entriesToFsValue at hw
      split at hw
      · split at hw <;> cases hw
      · cases hw
  | (k, v) :: es, fs, hv2, hw2, ws, hv, hw => by
    simp only [entriesRecoverable, Bool.and_eq_true] at hv2
    obtain ⟨e1, he1⟩ := toFsValue_of_recoverable v hv2.1
    unfold entriesToFsValue at hv
    rw [he1] at hv
    cases hrest : entriesToFsValue es with
    | error err => rw [hrest] at hv; cases hv
    | ok es1 =>
      rw [hrest] at hv
      simp only [Except.ok.injEq] at hv
      subst hv
      cases fs with
      | nil => simp [entriesToFsValue] at hw
      | cons f fs =>
        obtain ⟨k2, w⟩ := f
        simp only [entriesRecoverable, Bool.and_eq_true] at hw2
        obtain ⟨e2, he2⟩ := toFsValue_of_recoverable w hw2.1
        unfold entriesToFsValue at hw
        rw [he2] at hw
        cases hrest2 : entriesToFsValue fs with
        | error err => rw [hrest2] at hw; cases hw
        | ok es2 =>
          rw [hrest2] at hw
          simp only [Except.ok.injEq, List.cons.injEq, Prod.mk.injEq] at hw
          obtain ⟨⟨hk, h1⟩, h2⟩ := hw
          subst hk h1 h2
          rw [toFsValue_injective_aux v w hv2.1 hw2.1 e2 he1 he2,
            entriesToFsValue_injective_aux es fs hv2.2 hw2.2 es2 hrest hrest2]
end

/-- C3 (amended): on Native Values whose timestamps are whole seconds and that
hold no negative zero (no `undefined`, valid dates with no millisecond part,
no `-0`, integral numbers exactly representable, records with distinct keys)
`toFsValue` maps distinct values to distinct wire values, so a decode function
with `decode(toFsValue(v)) = v` exists for all of them. -/
theorem toFsValue_injective_on_recoverable (v w : JsValue)
    (hv : v.recoverable = true) (hw : w.recoverable = true)
    (h : toFsValue v = toFsValue w) :
    v = w ∧
    ∃ decode : WireValue → JsValue,
      ∀ u : JsValue, u.recoverable = true → ∀ e, toFsValue u = .ok e → decode e = u := by
  constructor
  · obtain ⟨e, he⟩ := toFsValue_of_recoverable v hv
    exact toFsValue_injective_aux v w hv hw e he (h ▸ he)
  · classical
    refine ⟨fun e =>
      if hex : ∃ u : JsValue, u.recoverable = true ∧ toFsValue u = .ok e
      then Classical.choose hex else .null, ?_⟩
    intro u hu e he
    have hex : ∃ u : JsValue, u.recoverable = true ∧ toFsValue u = .ok e := ⟨u, hu, he⟩
    simp only [dif_pos hex]
    have hspec := Classical.choose_spec hex
    exact toFsValue_injective_aux _ u hspec.1 hu e hspec.2 he

/-- Witness for C3 (amended): a record with a whole-second timestamp, a large
integer and a nested array. -/
theorem toFsValue_injective_on_recoverable_witness :
    JsValue.object [("at", .date (some 1762387200000)), ("n", .number (.finite 45)),
        ("xs", .array [.null, .string "a", .number (.finite (1 / 2))])] =
      JsValue.object [("at", .date (some 1762387200000)), ("n", .number (.finite 45)),
        ("xs", .array [.null, .string "a", .number (.finite (1 / 2))])] ∧
    ∃ decode : WireValue → JsValue,
      ∀ u : JsValue, u.recoverable = true → ∀ e, toFsValue u = .ok e → decode e = u :=
  toFsValue_injective_on_recoverable
    (.object [("at", .date (some 1762387200000)), ("n", .number (.finite 45)),
      ("xs", .array [.null, .string "a", .number (.finite (1 / 2))])])
    (.object [("at", .date (some 1762387200000)), ("n", .number (.finite 45)),
      ("xs", .array [.null, .string "a", .number (.finite (1 / 2))])])
    (by decide!) (by decide!) rfl

/-- C3 fails on two timestamps one millisecond apart, and on the two zeros
`0` and `-0`: each pair is two distinct Native Values with one wire value, so
no decode function recovers both. -/
theorem toFsValue_merges_timestamps_within_a_second :
    JsValue.date (some 0) ≠ JsValue.date (some 1) ∧
    toFsValue (.date (some 0)) = .ok (.timestampValue "1970-01-01T00:00:00Z") ∧
    toFsValue (.date (some 1)) = .ok (.timestampValue "1970-01-01T00:00:00Z") ∧
    JsValue.number (.finite 0) ≠ JsValue.number .negZero ∧
    toFsValue (.number (.finite 0)) = .ok (.integerValue "0") ∧
    toFsValue (.number .negZero) = .ok (.integerValue "0") ∧
    ¬ ∃ decode : WireValue → JsValue,
      ∀ v ∈ [JsValue.date (some 0), JsValue.date (some 1)],
        ∀ e, toFsValue v = .ok e → decode e = v := by
  have h0 : toFsValue (.date (some 0)) = .ok (.timestampValue "1970-01-01T00:00:00Z") := by
    have : isoUtc (some 0) = .ok "1970-01-01T00:00:00Z" := by decide
    simp [toFsValue, this]
  have h1 : toFsValue (.date (some 1)) = .ok (.timestampValue "1970-01-01T00:00:00Z") := by
    have : isoUtc (some 1) = .ok "1970-01-01T00:00:00Z" := by decide
    simp [toFsValue, this]
  have hne : JsValue.date (some 0) ≠ JsValue.date (some 1) := by
    intro h
    simp only [JsValue.date.injEq, Option.some.injEq] at h
    omega
  have hz : toFsValue (.number (.finite 0)) = .ok (.integerValue "0") := by
    have := toFsValue_number_int 0
    simpa using this
  refine ⟨hne, h0, h1, by simp, hz, rfl, ?_⟩
  rintro ⟨decode, hd⟩
  have e0 := hd _ (by simp) _ h0
  have e1 := hd _ (List.mem_cons_of_mem _ (List.mem_singleton.mpr rfl)) _ h1
  exact hne (e0.symm.trans e1)

end ClientMeetings
